import Mathlib

/-!
Verification of the kwagoo-api media-composition builders.

Strings of the JavaScript source are embedded as `List Char`; every function
below is translated from a named function of the repository (file and line
references in the doc comments).  The filter-graph labels, which the source
builds as strings such as `"[s" ++ toString idx ++ "]"`, are embedded as an
inductive type whose constructors are in bijection with the string formats the
source uses, so that label equality in the model coincides with string
equality in the source.
-/

namespace Kwagoo

/-! ## JavaScript string primitives -/

/-- Backslash. -/
def bs : Char := Char.ofNat 92

/-- Single quote. -/
def sq : Char := Char.ofNat 39

/-- Double quote. -/
def dq : Char := Char.ofNat 34

/-- Newline, the joiner used for left-aligned text blocks. -/
def nl : Char := Char.ofNat 10

/-- Space, the split delimiter of `wrapLines`. -/
def sp : Char := ' '

/-- Characters the JavaScript runtime treats as whitespace in
`String.prototype.trim` (the WhiteSpace and LineTerminator productions). -/
def jsWhitespace (c : Char) : Bool :=
  c.val = 9 || c.val = 10 || c.val = 11 || c.val = 12 || c.val = 13 || c.val = 32 ||
  c.val = 0xa0 || c.val = 0x1680 || (0x2000 ≤ c.val && c.val ≤ 0x200a) ||
  c.val = 0x2028 || c.val = 0x2029 || c.val = 0x202f || c.val = 0x205f ||
  c.val = 0x3000 || c.val = 0xfeff

/-- JS `str.trim()`: strip whitespace from both ends. -/
def jsTrim (l : List Char) : List Char :=
  ((l.dropWhile jsWhitespace).reverse.dropWhile jsWhitespace).reverse

/-- JS `str.split(d)` for a one-character separator `d`: cut at every
occurrence, keeping empty pieces (so the result is never the empty list). -/
def splitCh (d : Char) : List Char → List (List Char)
  | [] => [[]]
  | c :: rest =>
    let r := splitCh d rest
    if c = d then [] :: r
    else
      match r with
      | [] => [[c]]
      | w :: ws => (c :: w) :: ws

/-- JS `str.split(" ")` as used by `wrapLines`. -/
def splitSp (l : List Char) : List (List Char) := splitCh sp l

/-- JS `str.replace(/c/g, rep)` for a single-character pattern: every
occurrence of `c` is replaced by `rep`, independently. -/
def replaceChar (c : Char) (rep : List Char) : List Char → List Char
  | [] => []
  | a :: rest => (if a = c then rep else [a]) ++ replaceChar c rep rest

/-- JS `str.toLowerCase()` restricted to its ASCII action, the only characters
the source compares the result against (`"center"`, `"right"`). -/
def jsToLower (l : List Char) : List Char :=
  l.map fun c => if 65 ≤ c.val && c.val ≤ 90 then Char.ofNat (c.toNat + 32) else c

/-! ## The text layout engine: `wrapLines`
(src/utils/DynamicComposer.js lines 29-44; the byte-identical copies in
src/utils/CreateVideo.js lines 21-36 and src/unnamed/part_000 lines 34-49
are the same function.) -/

/-- One iteration of the `for (const w of words)` loop of `wrapLines`:
`test = (cur + " " + w).trim(); if (test.length > maxChars) ... else ...`. -/
def wrapStep (maxChars : Nat) (st : List (List Char) × List Char) (w : List Char) :
    List (List Char) × List Char :=
  let test := jsTrim (st.2 ++ sp :: w)
  if maxChars < test.length then (st.1 ++ [jsTrim st.2], w) else (st.1, test)

/-- `wrapLines(str, maxChars)`: greedy word wrap.  The trailing
`if (cur) lines.push(cur.trim())` only fires on a non-empty `cur`. -/
def wrapLines (s : List Char) (maxChars : Nat) : List (List Char) :=
  let r := (splitSp s).foldl (wrapStep maxChars) ([], [])
  if r.2 = [] then r.1 else r.1 ++ [jsTrim r.2]

/-! ## Escaping
`escapeFFmpegText` (DynamicComposer.js lines 26-27) chains three global
replaces: backslash to double backslash, quote to backslash-quote, colon to
backslash-colon.  The font-file and text-file paths are escaped with only the
first and third replace (DynamicComposer.js lines 124 and 156). -/

/-- `escapeFFmpegText` of DynamicComposer.js:
`s.replace(/\\/g,"\\\\").replace(/'/g,"\\'").replace(/:/g,"\\:")`. -/
def escapeFFmpegText (s : List Char) : List Char :=
  replaceChar ':' [bs, ':'] (replaceChar sq [bs, sq] (replaceChar bs [bs, bs] s))

/-- The path escaping applied to `fontFile` and `txtPath`
(DynamicComposer.js lines 124 and 156, CreateVideo.js line 79):
`p.replace(/\\/g,"\\\\").replace(/:/g,"\\:")` — no quote handling. -/
def escapePath (s : List Char) : List Char :=
  replaceChar ':' [bs, ':'] (replaceChar bs [bs, bs] s)

/-- The `escapeFFmpegText` variant of src/unnamed/part_002 lines 29-39: it
deletes the metacharacters (replacement is the empty string) instead of
escaping them; the curly-quote classes are the code points 0x201c/0x201d and
0x2018/0x2019. -/
def escapeFFmpegTextStrip (s : List Char) : List Char :=
  replaceChar (Char.ofNat 0x2019) []
    (replaceChar (Char.ofNat 0x2018) []
      (replaceChar (Char.ofNat 0x201d) []
        (replaceChar (Char.ofNat 0x201c) []
          (replaceChar dq []
            (replaceChar '%' []
              (replaceChar sq []
                (replaceChar ':' []
                  (replaceChar bs [] s))))))))

/-- Per-character meaning of the chained replaces of `escapeFFmpegText`:
backslash, quote and colon each become a backslash-prefixed pair. -/
def escTripleChar (a : Char) : List Char :=
  if a = bs || a = sq || a = ':' then [bs, a] else [a]

/-- Per-character meaning of `escapePath`: only backslash and colon are
escaped; every other character — the single quote included — passes through. -/
def escPathChar (a : Char) : List Char :=
  if a = bs || a = ':' then [bs, a] else [a]

/-- The characters `escapeFFmpegTextStrip` deletes. -/
def strippedChars : List Char :=
  [bs, ':', sq, '%', dq, Char.ofNat 0x201c, Char.ofNat 0x201d,
   Char.ofNat 0x2018, Char.ofNat 0x2019]

/-- True when `s` contains an occurrence of `c` that is not immediately
preceded by an escaping backslash (a backslash consumes the character after
it, so the scan skips escaped pairs). -/
def hasUnescaped (c : Char) : List Char → Bool
  | [] => false
  | a :: rest =>
    if a = bs then
      match rest with
      | [] => false
      | _ :: r2 => hasUnescaped c r2
    else (a = c) || hasUnescaped c rest

/-! ## Canvas size lookup
`getCanvasSize` (DynamicComposer.js lines 46-56 and ImageComposer.js lines
40-57) maps a ratio string to a `"WxH"` dimension string; a string already of
the raw `\d+x\d+` shape passes through; anything else falls back to square. -/

/-- ASCII digit test, the `\d` of the `^\d+x\d+$` regex. -/
def isDigitCh (c : Char) : Bool := 48 ≤ c.val && c.val ≤ 57

/-- The regex test `/^\d+x\d+$/.test(ratio)`: exactly one `x`, flanked by
non-empty digit runs. -/
def matchWxH (l : List Char) : Bool :=
  match splitCh 'x' l with
  | [a, b] => !a.isEmpty && !b.isEmpty && a.all isDigitCh && b.all isDigitCh
  | _ => false

/-- `getCanvasSize` of DynamicComposer.js (four named ratios). -/
def getCanvasSizeDyn (r : List Char) : List Char :=
  if r = "9:16".data then "1080x1920".data
  else if r = "1:1".data then "1080x1080".data
  else if r = "4:5".data then "1080x1350".data
  else if r = "16:9".data then "1920x1080".data
  else if matchWxH r then r else "1080x1080".data

/-- `getCanvasSize` of ImageComposer.js (ten named ratios). -/
def getCanvasSizeImg (r : List Char) : List Char :=
  if r = "9:16".data then "1080x1920".data
  else if r = "1:1".data then "1080x1080".data
  else if r = "4:5".data then "1080x1350".data
  else if r = "16:9".data then "1920x1080".data
  else if r = "2:3".data then "1080x1620".data
  else if r = "3:4".data then "1080x1440".data
  else if r = "3:2".data then "1620x1080".data
  else if r = "21:9".data then "2520x1080".data
  else if r = "5:7".data then "1080x1512".data
  else if r = "5:4".data then "1350x1080".data
  else if matchWxH r then r else "1080x1080".data

/-- JS `parseInt(str, 10)` on the digit strings produced by `getCanvasSize`:
accumulate the leading digit run. -/
def parseIntAux : List Char → Nat → Nat
  | [], acc => acc
  | c :: rest, acc =>
    if isDigitCh c then parseIntAux rest (acc * 10 + (c.toNat - 48)) else acc

/-- `parseInt(canvasSz.split("x")[1], 10)`: the canvas height. -/
def canvasHeightOf (canvasSz : List Char) : Nat :=
  parseIntAux ((splitCh 'x' canvasSz).getD 1 []) 0

/-! ## The layer model
One raw element of the `elements` array.  `Option` models an absent field
(`Number.isFinite(undefined)` is false, `undefined || d` is `d`); `JSValue`
models the `typeof el.Value === "string"` guard. -/

/-- The `Value` field of a raw element: a string, or anything else
(absent, number, object, ...), which every builder treats alike. -/
inductive JSValue where
  | str (s : List Char)
  | nonString
  deriving DecidableEq

/-- True exactly when `typeof el.Value === "string"`. -/
def JSValue.isStr : JSValue → Bool
  | .str _ => true
  | .nonString => false

/-- One raw element descriptor as the builders read it. -/
structure Element where
  etype : Option (List Char) := none  -- el.Type
  value : JSValue := .nonString       -- el.Value
  width : Option Int := none          -- el.Width  (some n iff Number.isFinite)
  height : Option Int := none         -- el.Height
  xpos : Option Int := none           -- el.xpos
  ypos : Option Int := none           -- el.ypos
  fontSize : Option Int := none       -- el.FontSize
  fontColor : Option (List Char) := none  -- el.FontColor (none when falsy)
  fontStyle : Option (List Char) := none  -- el.FontStyle (none when falsy)
  maxLineLength : Option Nat := none  -- el.MaxLineLength
  align : Option (List Char) := none  -- el.align (none when falsy)
  deriving DecidableEq

/-- The guard `el.Type === "Image" && typeof el.Value === "string"`. -/
def Element.isImage (el : Element) : Bool :=
  decide (el.etype = some "Image".data) && el.value.isStr

/-- The guard `el.Type === "Text" && typeof el.Value === "string"`. -/
def Element.isText (el : Element) : Bool :=
  decide (el.etype = some "Text".data) && el.value.isStr

/-- The string content of a text or image value (`""` never reached: the
builders read `Value` only under `isStr`). -/
def JSValue.getStr : JSValue → List Char
  | .str s => s
  | .nonString => []

/-! ## Filter-graph labels
The source writes labels as strings; the formats it uses, per builder, are
`"[k:v]"` (input stream `k`; the lavfi canvas is stream 0), `"[s" ++ i ++ "]"`
(DynamicComposer scale output; ImageComposer writes `"[scl" ++ i ++ "]"`),
`"[v" ++ i ++ "]"` (overlay output, and ImageComposer text output),
`"[t" ++ i ++ "_" ++ j ++ "]"` (per-line drawtext), `"[t" ++ i ++ "]"`
(left-block drawtext) and `"[out]"`.  Distinct constructors applied to
distinct indices render to distinct strings, so label equality below is
string equality in the source. -/

inductive Label where
  | stream (k : Nat)
  | scaled (idx : Nat)
  | over (idx : Nat)
  | tline (idx i : Nat)
  | tblock (idx : Nat)
  | outL
  deriving DecidableEq

/-- The horizontal placement of a drawtext stage: a pixel offset, the
centering expression `(w-text_w)/2`, or the right-flush expression
`w-text_w-10`. -/
inductive XExpr where
  | px (n : Int)
  | centerX
  | rightX
  deriving DecidableEq

/-- A scratch file staged for one request (real names carry the request
timestamp: `img_ts_idx.png`, `txt_ts_idx.txt`). -/
inductive TempTag where
  | imgFile (idx : Nat)
  | txtFile (idx : Nat)
  deriving DecidableEq

/-- The operation of one filter stage, with the parameters the source
interpolates into the filter string. -/
inductive FilterOp where
  /-- `scale=W:H` (both dimensions given). -/
  | scaleWH (w h : Int)
  /-- `scale=W:-1,crop=W:ih` (width only). -/
  | scaleW (w : Int)
  /-- `scale=-1:H,crop=iw:H` (DynamicComposer, height only). -/
  | scaleH (h : Int)
  /-- `scale=iw:-1,crop=iw:H` (ImageComposer, height only). -/
  | scaleIwCropH (h : Int)
  /-- `scale=-1:canvasHeight` (no dimensions given). -/
  | scaleFill (canvasH : Nat)
  /-- `overlay=x:y`. -/
  | overlay (x y : Int)
  /-- `drawtext=fontfile='F':text='T':fontcolor=C:fontsize=S:x=X:y=Y`
  with `F` and `T` already escaped. -/
  | drawtext (font text color : List Char) (size : Int) (x : XExpr) (y : Int)
  /-- `drawtext=textfile='P':fontfile='F':...`.  `file` is the scratch file
  whose absolute path `P` the source escapes with the same two-replace
  `escapePath`; `content` is what `fs.writeFileSync` puts in it, the
  newline-joined wrapped lines.  `F` is already escaped. -/
  | drawtextFile (file : TempTag) (content font color : List Char)
      (size : Int) (x : XExpr) (y : Int)
  /-- The final `copy`. -/
  | copyF
  deriving DecidableEq

/-- One entry of the `filters` array: the labels it consumes, the label it
produces, and its operation. -/
structure Stage where
  inps : List Label
  outp : Label
  op : FilterOp
  deriving DecidableEq

/-- The builder state threaded through `elements.forEach`: `inputs.length`
(the lavfi canvas is input 0, so it starts at 1), the running label `prev`,
the `filters` array and the `tempFiles` array. -/
structure DState where
  nInputs : Nat
  prev : Label
  stages : List Stage
  temps : List TempTag
  deriving DecidableEq

/-! ## DynamicComposer.js: `composeDynamic` (lines 58-195) -/

/-- DEFAULT_FONT and the per-style font path of DynamicComposer.js (lines
19-21 and 119-123), non-win32 branch. -/
def dynFontFile (style : Option (List Char)) : List Char :=
  match style with
  | some s => "/usr/share/fonts/truetype/dejavu/".data ++ s ++ ".ttf".data
  | none => "/usr/share/fonts/truetype/dejavu/DejaVuSans.ttf".data

/-- `Math.round(size * 1.2)`: the line height.  `6*size/5` never lands on a
half, so round-half-up over the rationals agrees with the float computation;
`Int.fdiv` is the floor. -/
def lineHeightOf (size : Int) : Int := Int.fdiv (12 * size + 5) 10

/-- The scale/crop stage choice for an image element
(DynamicComposer.js lines 91-103). -/
def dynScaleOp (canvasH : Nat) (el : Element) : FilterOp :=
  match el.width, el.height with
  | some w, some h => .scaleWH w h
  | some w, none => .scaleW w
  | none, some h => .scaleH h
  | none, none => .scaleFill canvasH

/-- The per-line drawtext loop for center/right alignment
(DynamicComposer.js lines 135-149): line `i` consumes `prev` and produces
`[t idx _ i]`. -/
def procLines (idx : Nat) (font color : List Char) (size : Int) (x : XExpr)
    (baseY lh : Int) : List (List Char) → Nat → DState → DState
  | [], _, st => st
  | ln :: rest, i, st =>
    procLines idx font color size x baseY lh rest (i + 1)
      { st with
        stages := st.stages ++
          [⟨[st.prev], .tline idx i,
            .drawtext font (escapeFFmpegText ln) color size x (baseY + i * lh)⟩],
        prev := .tline idx i }

/-- The body of `elements.forEach((el, idx) => ...)` of `composeDynamic`
(lines 77-168). -/
def dynStepElem (canvasH : Nat) (idx : Nat) (st : DState) (el : Element) : DState :=
  if el.isImage then
    let raw := Label.stream st.nInputs
    { st with
      nInputs := st.nInputs + 1,
      temps := st.temps ++ [.imgFile idx],
      stages := st.stages ++
        [⟨[raw], .scaled idx, dynScaleOp canvasH el⟩,
         ⟨[st.prev, .scaled idx], .over idx,
          .overlay (el.xpos.getD 0) (el.ypos.getD 0)⟩],
      prev := .over idx }
  else if el.isText then
    let maxChars := el.maxLineLength.getD 30
    let lines := wrapLines el.value.getStr maxChars
    let escFont := escapePath (dynFontFile el.fontStyle)
    let size := el.fontSize.getD 48
    let color := el.fontColor.getD "white".data
    let baseY := el.ypos.getD 10
    let algn := jsToLower (el.align.getD "left".data)
    if algn = "center".data ∨ algn = "right".data then
      procLines idx escFont color size
        (if algn = "center".data then .centerX else .rightX)
        baseY (lineHeightOf size) lines 0 st
    else
      { st with
        temps := st.temps ++ [.txtFile idx],
        stages := st.stages ++
          [⟨[st.prev], .tblock idx,
            .drawtextFile (.txtFile idx) (List.intercalate [nl] lines)
              escFont color size (.px (el.xpos.getD 10)) baseY⟩],
        prev := .tblock idx }
  else st

/-- The `forEach` loop, carrying the element index. -/
def dynProcElems (canvasH : Nat) : List Element → Nat → DState → DState
  | [], _, st => st
  | el :: rest, idx, st =>
    dynProcElems canvasH rest (idx + 1) (dynStepElem canvasH idx st el)

/-- A compose request as `composeDynamic` destructures it:
`const { elements = [], ratio = "1:1" } = payload`. -/
structure DPayload where
  elements : List Element
  ratioStr : List Char := "1:1".data
  deriving DecidableEq

/-- The one validation failure of the builders:
`throw new Error("elements must be a non-empty array")` (the real message
quotes the field name). -/
inductive BuildErr where
  | elementsEmpty
  deriving DecidableEq

/-- `composeDynamic` up to the point where the assembled command is handed
to the subprocess: the validation check, then the element loop, then the
final `copy[out]` stage.  An `.ok` result means a command is assembled and
`ffmpeg` is spawned on it. -/
def composeDynamicBuild (p : DPayload) : Except BuildErr DState :=
  if p.elements = [] then .error .elementsEmpty
  else
    let canvasH := canvasHeightOf (getCanvasSizeDyn p.ratioStr)
    let st := dynProcElems canvasH p.elements 0 ⟨1, .stream 0, [], []⟩
    .ok { st with stages := st.stages ++ [⟨[st.prev], .outL, .copyF⟩] }

/-! ## ImageComposer.js: `composeImage` (lines 62-163)
Same shape as `composeDynamic`; a text element renders as one drawtext stage
labelled `[v idx]` with the whole (escaped) value, fixed white colour and the
unescaped FONT_PATH. -/

/-- FONT_PATH of ImageComposer.js (lines 25-27), non-win32 branch; it is
interpolated without any escaping. -/
def imgFontPath : List Char := "/usr/share/fonts/truetype/dejavu/DejaVuSans.ttf".data

/-- The scale/crop choice of ImageComposer.js (lines 104-112); the
height-only case keeps `iw` instead of `-1`. -/
def imgScaleOp (canvasH : Nat) (el : Element) : FilterOp :=
  match el.width, el.height with
  | some w, some h => .scaleWH w h
  | some w, none => .scaleW w
  | none, some h => .scaleIwCropH h
  | none, none => .scaleFill canvasH

/-- The body of `elements.forEach` of `composeImage` (lines 84-136). -/
def imgStepElem (canvasH : Nat) (idx : Nat) (st : DState) (el : Element) : DState :=
  if el.isImage then
    let raw := Label.stream st.nInputs
    { st with
      nInputs := st.nInputs + 1,
      temps := st.temps ++ [.imgFile idx],
      stages := st.stages ++
        [⟨[raw], .scaled idx, imgScaleOp canvasH el⟩,
         ⟨[st.prev, .scaled idx], .over idx,
          .overlay (el.xpos.getD 0) (el.ypos.getD 0)⟩],
      prev := .over idx }
  else if el.isText then
    { st with
      stages := st.stages ++
        [⟨[st.prev], .over idx,
          .drawtext imgFontPath (escapeFFmpegText el.value.getStr) "white".data
            (el.fontSize.getD 48) (.px (el.xpos.getD 0)) (el.ypos.getD 0)⟩],
      prev := .over idx }
  else st

/-- The `forEach` loop of `composeImage`. -/
def imgProcElems (canvasH : Nat) : List Element → Nat → DState → DState
  | [], _, st => st
  | el :: rest, idx, st =>
    imgProcElems canvasH rest (idx + 1) (imgStepElem canvasH idx st el)

/-- `composeImage` up to the subprocess hand-off (same validation as
`composeDynamic`). -/
def composeImageBuild (p : DPayload) : Except BuildErr DState :=
  if p.elements = [] then .error .elementsEmpty
  else
    let canvasH := canvasHeightOf (getCanvasSizeImg p.ratioStr)
    let st := imgProcElems canvasH p.elements 0 ⟨1, .stream 0, [], []⟩
    .ok { st with stages := st.stages ++ [⟨[st.prev], .outL, .copyF⟩] }

/-- True on `.error`. -/
def isErr {ε α : Type} : Except ε α → Bool
  | .error _ => true
  | .ok _ => false

/-- The built state of a successful build (the base state on the error
branch, never used there). -/
def buildGetD (e : Except BuildErr DState) : DState :=
  match e with
  | .ok st => st
  | .error _ => ⟨1, .stream 0, [], []⟩

/-! ## Command assembly: CreateVideo.js `createVideo` (lines 38-162) and
src/unnamed/part_000 `composeVideo` (lines 51-200).
Each `CmdTok` constructor stands for one entry of the `inputs`, `maps` or
`cmdParts` arrays of the source, written there as a literal string; the
constructors are listed with the string they stand for. -/

inductive CmdTok where
  /-- `"ffmpegPath" -y`. -/
  | ffmpegY
  /-- `-stream_loop`. -/
  | streamLoop
  /-- `-1` (the argument of `-stream_loop`: loop forever). -/
  | minusOne
  /-- `-i "videoPath"`, the base video input (input 0). -/
  | inputVideo
  /-- `-i "audioPath"`, the secondary audio input (input 1). -/
  | inputAudio
  /-- `-filter_complex "..."`. -/
  | filterComplexTok
  /-- `-map "[out]"`. -/
  | mapOut
  /-- `-map 1:a`: the secondary audio stream becomes the output audio. -/
  | mapOneAudio
  /-- `-map 0:a?`: the base media audio, only if present. -/
  | mapZeroAudioOpt
  /-- `-c:v libx264 -profile:v baseline -level 3.1 -pix_fmt yuv420p`. -/
  | vcodecBaseline
  /-- `-r 30`. -/
  | rate30
  /-- `-crf 23 -preset veryfast`. -/
  | crf23Fast
  /-- `-c:a aac -b:a 128k -ar 48000`. -/
  | acodecAac128
  /-- `-movflags +faststart`. -/
  | movFaststart
  /-- `-c:v libx264 -crf 30 -preset slow` (part_000). -/
  | vcodecCrf30Slow
  /-- `-c:a aac` (part_000). -/
  | acodecAac
  /-- `-t n`: hard output duration. -/
  | tDur (n : Int)
  /-- `-shortest`. -/
  | shortestTok
  /-- `"outputPath"`. -/
  | outPathTok
  deriving DecidableEq

/-- The `inputs` array (CreateVideo.js lines 114-118, identical in part_000
lines 142-146): the `-stream_loop -1` pair is prepended before `-i video`
when an audio track is present, and `-i audio` is appended after. -/
def videoInputs (hasAudio : Bool) : List CmdTok :=
  (if hasAudio then [.streamLoop, .minusOne] else []) ++
  [.inputVideo] ++
  (if hasAudio then [.inputAudio] else [])

/-- The `maps` array (CreateVideo.js lines 120-123, part_000 lines 148-151). -/
def videoMaps (hasAudio : Bool) : List CmdTok :=
  [.mapOut, if hasAudio then .mapOneAudio else .mapZeroAudioOpt]

/-- `Number.isFinite(length) && length > 0`. -/
def lengthPos : Option Int → Bool
  | some n => decide (0 < n)
  | none => false

/-- The duration tail of `createVideo` (lines 137-141): `-t` on a positive
finite length, OTHERWISE `-shortest` when audio is present (an else-if). -/
def createVideoTail (hasAudio : Bool) (len : Option Int) : List CmdTok :=
  if lengthPos len then [.tDur ((len.getD 0))]
  else if hasAudio then [.shortestTok] else []

/-- The full `cmdParts` of `createVideo` (lines 125-143). -/
def createVideoCmdParts (hasAudio : Bool) (len : Option Int) : List CmdTok :=
  [.ffmpegY] ++ videoInputs hasAudio ++ [.filterComplexTok] ++
  videoMaps hasAudio ++
  [.vcodecBaseline, .rate30, .crf23Fast, .acodecAac128, .movFaststart] ++
  createVideoTail hasAudio len ++ [.outPathTok]

/-- The duration tail of part_000 `composeVideo` (lines 164-172): two
INDEPENDENT ifs — `-shortest` whenever audio is present, then `-t` whenever
a positive finite length is given; both can be emitted together. -/
def composeVideoTail (hasAudio : Bool) (len : Option Int) : List CmdTok :=
  (if hasAudio then [.shortestTok] else []) ++
  (if lengthPos len then [.tDur (len.getD 0)] else [])

/-- The full `cmdParts` of part_000 `composeVideo` (lines 154-175). -/
def composeVideoCmdParts (hasAudio : Bool) (len : Option Int) : List CmdTok :=
  [.ffmpegY] ++ videoInputs hasAudio ++ [.filterComplexTok] ++
  videoMaps hasAudio ++
  [.vcodecCrf30Slow, .acodecAac] ++
  composeVideoTail hasAudio len ++ [.outPathTok]

/-- The token immediately after the `-1` of `-stream_loop -1` — the `-i`
input that ffmpeg applies the looping option to. -/
def afterStreamLoop : List CmdTok → Option CmdTok
  | [] => none
  | .minusOne :: t :: _ => some t
  | _ :: rest => afterStreamLoop rest

/-! ## CreateVideo.js filter chains (lines 59-112), for `createVideo`:
the chain array starts with the unconditional scale of the base video and
appends one drawtext chain per wrapped line of each text element. -/

/-- One entry of the `chains` array of `createVideo`. -/
inductive VChain where
  /-- `[0:v]scale=W:H[scaled]` — the source writes the literal
  `[0:v]scale=1080:1920[scaled]`. -/
  | scaleBase (w h : Nat)
  /-- One drawtext chain: element `idx`, line `i`, escaped text, font size,
  x expression, y position; `final` marks the `[out]` label of the very
  last line (otherwise the label is `[t idx _ i]`). -/
  | draw (idx i : Nat) (text : List Char) (size : Int) (x : XExpr) (y : Int)
      (final : Bool)
  deriving DecidableEq

/-- The per-line x expression of `createVideo` (lines 87-94). -/
def cvXExpr (el : Element) (algn : List Char) : XExpr :=
  if algn = "center".data then .centerX
  else if algn = "right".data then .rightX
  else .px (el.xpos.getD 10)

/-- The `lines.forEach` of `createVideo` (lines 83-109) for one text
element: `isLast` tells whether this element is the last of the array, so
that its last line takes the `[out]` label. -/
def cvLines (idx : Nat) (el : Element) (algn : List Char) (size : Int)
    (baseY lh : Int) (isLast : Bool) :
    List (List Char) → Nat → Nat → List VChain
  | [], _, _ => []
  | ln :: rest, i, total =>
    .draw idx i (escapeFFmpegText ln) size (cvXExpr el algn)
      (baseY + i * lh) (isLast && decide (i + 1 = total)) ::
    cvLines idx el algn size baseY lh isLast rest (i + 1) total

/-- The `elements.forEach` of `createVideo` (lines 62-110): non-text
elements are skipped (`return`). -/
def cvProcElems (total : Nat) : List Element → Nat → List VChain
  | [], _ => []
  | el :: rest, idx =>
    (if el.isText then
      let size := el.fontSize.getD 48
      let maxChars := el.maxLineLength.getD 40
      let algn := jsToLower (el.align.getD "left".data)
      let lines := wrapLines el.value.getStr maxChars
      cvLines idx el algn size (el.ypos.getD 10) (lineHeightOf size)
        (decide (idx + 1 = total)) lines 0 lines.length
     else []) ++ cvProcElems total rest (idx + 1)

/-- The `chains` array of `createVideo`: the unconditional
`[0:v]scale=1080:1920[scaled]` head (line 59), then the text chains. -/
def createVideoChains (els : List Element) : List VChain :=
  .scaleBase 1080 1920 :: cvProcElems els.length els 0

/-- A request as `createVideo` destructures it:
`const { containerId, elements = [], length } = payload`.  `ratioStr`
models the `ratio` field the HTTP layer may carry; `createVideo` never
reads it. -/
structure CPayload where
  containerId : Option (List Char)
  elements : List Element
  lengthOpt : Option Int := none
  ratioStr : Option (List Char) := none
  deriving DecidableEq

/-- The failures of `createVideo` before assembly. -/
inductive CvErr where
  /-- `Payload must include containerId and at least one text element`. -/
  | badPayload
  /-- `Missing video file in container`. -/
  | missingVideo
  deriving DecidableEq

/-- `createVideo` up to the subprocess hand-off: the validation (line 41),
the container lookup (`audioExists`, `videoExists` are the `fs.existsSync`
answers, lines 49-55), then the chains and the command. -/
def createVideoBuild (p : CPayload) (audioExists videoExists : Bool) :
    Except CvErr (List VChain × List CmdTok) :=
  if p.containerId.isNone || p.elements.isEmpty then .error .badPayload
  else if !videoExists then .error .missingVideo
  else .ok (createVideoChains p.elements,
            createVideoCmdParts audioExists p.lengthOpt)

/-! ## Execution and cleanup of `composeDynamic`
(DynamicComposer.js lines 184-193).  The `try` runs the subprocess and reads
the artifact back; the `catch` logs and rethrows; the `finally` removes each
temp file with `fs.unlink(f, () => {})` — an asynchronous call with an
empty callback, so a removal failure is swallowed — and then calls
`fs.unlinkSync(outputImg)` UNGUARDED.  In JavaScript an exception raised in
a `finally` block replaces whatever the `try`/`catch` was about to return or
throw.  `fs.unlinkSync` throws ENOENT exactly when the output file does not
exist, which is the case when ffmpeg failed before producing it. -/

/-- What the environment did: did the subprocess exit 0, and does the output
file exist afterwards. -/
structure ExecEnv where
  execOk : Bool
  outputCreated : Bool
  deriving DecidableEq

/-- What the caller of `composeDynamic` observes. -/
inductive ReqOutcome where
  /-- The artifact buffer is returned. -/
  | artifact
  /-- The ffmpeg (or read-back) error is rethrown — the ProcessingError. -/
  | processingError
  /-- An exception escaping the `finally` block — the caller sees the
  cleanup failure INSTEAD of the primary result. -/
  | cleanupFailure
  deriving DecidableEq

/-- The observable result of the try/catch/finally of `composeDynamic`. -/
def composeDynamicRun (e : ExecEnv) : ReqOutcome :=
  let primary : ReqOutcome :=
    if e.execOk && e.outputCreated then .artifact else .processingError
  if e.outputCreated then primary else .cleanupFailure

/-! ## Proof-support definitions -/

/-- The tail of a space join: a space before every further piece. -/
def joinTail : List (List Char) → List Char
  | [] => []
  | w :: r => (sp :: w) ++ joinTail r

/-- Join pieces with single spaces — the inverse of `splitSp`. -/
def joinSp : List (List Char) → List Char
  | [] => []
  | w :: r => w ++ joinTail r

/-- The output labels of a stage list, in order. -/
def outputsOf (stages : List Stage) : List Label := stages.map Stage.outp

/-- The stream labels `[0:v] ... [n-1:v]` of a graph with `n` inputs. -/
def streams (n : Nat) : List Label := (List.range n).map Label.stream

/-- Chain validity: scanning the stages in order, every input label of every
stage is available — initially the labels in `avail`, plus the outputs of the
stages already scanned. -/
def chainOK (avail : List Label) : List Stage → Bool
  | [] => true
  | s :: rest => s.inps.all (fun l => decide (l ∈ avail)) && chainOK (s.outp :: avail) rest

/-- True on the labels a stage can produce (never a stream label, never the
terminal `[out]` which only the final copy produces). -/
def elemOut : Label → Bool
  | .scaled _ => true
  | .over _ => true
  | .tline _ _ => true
  | .tblock _ => true
  | _ => false

/-- The element index a produced label is keyed by. -/
def lIdx : Label → Nat
  | .scaled i => i
  | .over i => i
  | .tline i _ => i
  | .tblock i => i
  | .stream _ => 0
  | .outL => 0

/-- A payload whose single element is malformed (`Type` is `"Text"` but
`Value` is not a string): zero usable layers after filtering, yet the raw
array is non-empty. -/
def malformedOnlyPayload : DPayload :=
  { elements := [{ etype := some "Text".data }] }

/-- A payload with one valid image layer. -/
def oneImagePayload : DPayload :=
  { elements := [{ etype := some "Image".data, value := .str "iVBORw0KGgo".data,
                   width := some 200, height := some 200 }],
    ratioStr := "9:16".data }

/-- A payload with one centre-aligned text layer that wraps into two lines
and one image layer. -/
def mixedPayload : DPayload :=
  { elements :=
      [{ etype := some "Image".data, value := .str "iVBORw0KGgo".data },
       { etype := some "Text".data, value := .str "hello world out there".data,
         align := some "center".data, maxLineLength := some 11 }],
    ratioStr := "1:1".data }

/-- The user-controlled font style `a'b` containing a single quote. -/
def quoteStyle : List Char := 'a' :: sq :: 'b' :: []

/-- A string whose ends carry no whitespace and whose space split consists of
non-empty whitespace-free words — the shape of the accumulator `cur` of the
wrap loop on space-only input. -/
def cleanPieces (l : List Char) : Prop :=
  jsTrim l = l ∧ ∀ w ∈ splitSp l, w ≠ [] ∧ ∀ c ∈ w, jsWhitespace c = false

/-- The builder-state invariant before processing element `idx`: at least
the canvas input registered, the stage chain consumes only available labels,
the stage outputs are distinct element-keyed labels of earlier elements, and
the running label is the canvas or a produced output. -/
def InvAt (idx : Nat) (st : DState) : Prop :=
  1 ≤ st.nInputs ∧
  chainOK (streams st.nInputs) st.stages = true ∧
  (outputsOf st.stages).Nodup ∧
  (∀ l ∈ outputsOf st.stages, elemOut l = true ∧ lIdx l < idx) ∧
  (st.prev = .stream 0 ∨ st.prev ∈ outputsOf st.stages)

/-- The invariant inside the per-line loop of element `idx`, before line
`i`: outputs are either earlier-element labels or the lines of this element
drawn so far. -/
def InnerInv (idx i : Nat) (st : DState) : Prop :=
  1 ≤ st.nInputs ∧
  chainOK (streams st.nInputs) st.stages = true ∧
  (outputsOf st.stages).Nodup ∧
  (∀ l ∈ outputsOf st.stages, elemOut l = true ∧
    (lIdx l < idx ∨ ∃ j, j < i ∧ l = .tline idx j)) ∧
  (st.prev = .stream 0 ∨ st.prev ∈ outputsOf st.stages)

/-! ## Facts about `jsTrim` -/

theorem jsTrim_eq_rdropWhile (l : List Char) :
    jsTrim l = List.rdropWhile jsWhitespace (l.dropWhile jsWhitespace) := rfl

theorem rdropWhile_append_rtakeWhile (p : Char → Bool) (u : List Char) :
    List.rdropWhile p u ++ List.rtakeWhile p u = u := by
  simp only [List.rdropWhile, List.rtakeWhile, ← List.reverse_append,
    List.takeWhile_append_dropWhile, List.reverse_reverse]

theorem length_jsTrim_le (l : List Char) : (jsTrim l).length ≤ l.length := by
  rw [jsTrim_eq_rdropWhile]
  calc (List.rdropWhile jsWhitespace (l.dropWhile jsWhitespace)).length
      ≤ (l.dropWhile jsWhitespace).length := by
        simp only [List.rdropWhile, List.length_reverse]
        exact le_trans (List.dropWhile_sublist _).length_le (by simp)
    _ ≤ l.length := (List.dropWhile_sublist _).length_le

theorem mem_of_mem_jsTrim {c : Char} {l : List Char} (h : c ∈ jsTrim l) : c ∈ l := by
  rw [jsTrim_eq_rdropWhile] at h
  simp only [List.rdropWhile, List.mem_reverse] at h
  have h1 := (List.dropWhile_sublist _).subset h
  rw [List.mem_reverse] at h1
  exact (List.dropWhile_sublist _).subset h1

theorem jsTrim_ws_cons {c : Char} (h : jsWhitespace c = true) (l : List Char) :
    jsTrim (c :: l) = jsTrim l := by
  simp only [jsTrim, List.dropWhile_cons_of_pos h]

theorem jsTrim_concat_ws {c : Char} (h : jsWhitespace c = true) (l : List Char) :
    jsTrim (l ++ [c]) = jsTrim l := by
  rw [jsTrim_eq_rdropWhile, jsTrim_eq_rdropWhile, List.dropWhile_append]
  by_cases he : (l.dropWhile jsWhitespace).isEmpty
  · simp only [he, if_pos, List.dropWhile_cons_of_pos h, List.dropWhile_nil,
      List.rdropWhile_nil]
    rw [List.isEmpty_iff] at he
    rw [he, List.rdropWhile_nil]
  · simp only [he, if_neg, Bool.false_eq_true, not_false_iff]
    exact List.rdropWhile_concat_pos _ _ _ h

theorem jsTrim_eq_nil_iff {l : List Char} :
    jsTrim l = [] ↔ ∀ c ∈ l, jsWhitespace c = true := by
  rw [jsTrim_eq_rdropWhile, List.rdropWhile_eq_nil_iff]
  constructor
  · intro h c hc
    rw [← List.takeWhile_append_dropWhile jsWhitespace l] at hc
    rcases List.mem_append.1 hc with h1 | h2
    · exact List.mem_takeWhile_imp h1
    · exact h c h2
  · intro h c hc
    exact h c ((List.dropWhile_sublist _).subset hc)

theorem head?_jsTrim_not_ws {l : List Char} {c : Char}
    (h : (jsTrim l).head? = some c) : jsWhitespace c = false := by
  rw [jsTrim_eq_rdropWhile] at h
  have hu := rdropWhile_append_rtakeWhile jsWhitespace (l.dropWhile jsWhitespace)
  rcases hh : List.rdropWhile jsWhitespace (l.dropWhile jsWhitespace) with _ | ⟨a, t⟩
  · rw [hh] at h; simp at h
  · rw [hh] at h hu
    simp only [List.head?_cons, Option.some.injEq] at h
    have hhd : (l.dropWhile jsWhitespace).head? = some a := by
      rw [← hu]; rfl
    have hrun := List.head?_dropWhile_not jsWhitespace l
    rw [hhd] at hrun
    rw [← h]
    exact hrun

theorem jsTrim_eq_self_of {l : List Char}
    (h1 : ∀ c, l.head? = some c → jsWhitespace c = false)
    (h2 : ∀ c, l.getLast? = some c → jsWhitespace c = false) : jsTrim l = l := by
  have hd : l.dropWhile jsWhitespace = l := by
    cases l with
    | nil => rfl
    | cons a t =>
      have := h1 a rfl
      rw [List.dropWhile_cons_of_neg]
      rw [this]
      exact Bool.false_ne_true
  rw [jsTrim_eq_rdropWhile, hd, List.rdropWhile_eq_self_iff]
  intro hl hp
  have := h2 (l.getLast hl) (List.getLast?_eq_getLast l hl)
  rw [this] at hp
  exact Bool.false_ne_true hp

theorem head_not_ws_of_trimmed {l : List Char} (h : jsTrim l = l) :
    ∀ c, l.head? = some c → jsWhitespace c = false := by
  intro c hc
  by_contra hws
  rw [Bool.not_eq_false] at hws
  cases l with
  | nil => simp at hc
  | cons a t =>
    simp only [List.head?_cons, Option.some.injEq] at hc
    subst hc
    rw [jsTrim_ws_cons hws] at h
    have := length_jsTrim_le t
    rw [h] at this
    simp only [List.length_cons] at this
    omega

theorem last_not_ws_of_trimmed {l : List Char} (h : jsTrim l = l) :
    ∀ c, l.getLast? = some c → jsWhitespace c = false := by
  intro c hc
  by_contra hws
  rw [Bool.not_eq_false] at hws
  rcases List.getLast?_eq_some_iff.1 hc with ⟨y, rfl⟩
  rw [jsTrim_concat_ws hws] at h
  have := length_jsTrim_le y
  rw [h] at this
  simp only [List.length_append, List.length_cons, List.length_nil] at this
  omega

/-! ## Facts about `splitCh` and `joinSp` -/

theorem splitCh_ne_nil (d : Char) (l : List Char) : splitCh d l ≠ [] := by
  cases l with
  | nil => simp [splitCh]
  | cons c rest =>
    simp only [splitCh]
    by_cases h : c = d
    · simp [h]
    · simp only [h, if_neg, not_false_iff]
      rcases splitCh d rest with _ | ⟨w, ws⟩ <;> simp

theorem sp_not_mem_of_mem_splitCh {l w : List Char} (h : w ∈ splitCh sp l) : sp ∉ w := by
  induction l generalizing w with
  | nil =>
    simp only [splitCh, List.mem_singleton] at h
    subst h; simp
  | cons c rest ih =>
    simp only [splitCh] at h
    by_cases hc : c = sp
    · rw [if_pos hc] at h
      rcases List.mem_cons.1 h with rfl | h2
      · simp
      · exact ih h2
    · rw [if_neg hc] at h
      rcases hw : splitCh sp rest with _ | ⟨w0, ws0⟩
      · exact absurd hw (splitCh_ne_nil sp rest)
      · rw [hw] at h
        rcases List.mem_cons.1 h with rfl | h2
        · intro hmem
          rcases List.mem_cons.1 hmem with h3 | h4
          · exact hc h3.symm
          · exact ih (by rw [hw]; exact List.mem_cons_self w0 ws0) h4
        · exact ih (by rw [hw]; exact List.mem_cons_of_mem w0 h2)

theorem mem_of_mem_splitCh {d c : Char} {l w : List Char}
    (h : w ∈ splitCh d l) (hc : c ∈ w) : c ∈ l := by
  induction l generalizing w with
  | nil =>
    simp only [splitCh, List.mem_singleton] at h
    subst h; simp at hc
  | cons a rest ih =>
    simp only [splitCh] at h
    by_cases ha : a = d
    · rw [if_pos ha] at h
      rcases List.mem_cons.1 h with rfl | h2
      · simp at hc
      · exact List.mem_cons_of_mem a (ih h2 hc)
    · rw [if_neg ha] at h
      rcases hw : splitCh d rest with _ | ⟨w0, ws0⟩
      · exact absurd hw (splitCh_ne_nil d rest)
      · rw [hw] at h
        rcases List.mem_cons.1 h with rfl | h2
        · rcases List.mem_cons.1 hc with rfl | h4
          · exact List.mem_cons_self c rest
          · exact List.mem_cons_of_mem a
              (ih (by rw [hw]; exact List.mem_cons_self w0 ws0) h4)
        · exact List.mem_cons_of_mem a
            (ih (by rw [hw]; exact List.mem_cons_of_mem w0 h2) hc)

theorem joinTail_of_ne_nil {r : List (List Char)} (h : r ≠ []) :
    joinTail r = sp :: joinSp r := by
  cases r with
  | nil => exact absurd rfl h
  | cons w rest => rfl

theorem joinSp_splitSp (l : List Char) : joinSp (splitSp l) = l := by
  induction l with
  | nil => rfl
  | cons c rest ih =>
    simp only [splitSp, splitCh] at *
    by_cases hc : c = sp
    · rw [if_pos hc]
      have hne := splitCh_ne_nil sp rest
      simp only [joinSp]
      rw [joinTail_of_ne_nil hne, ih, hc]
      rfl
    · rw [if_neg hc]
      rcases hw : splitCh sp rest with _ | ⟨w0, ws0⟩
      · exact absurd hw (splitCh_ne_nil sp rest)
      · rw [hw] at ih
        simp only [joinSp] at *
        rw [List.cons_append, ih]

theorem splitSp_of_not_mem {w : List Char} (h : sp ∉ w) : splitSp w = [w] := by
  induction w with
  | nil => rfl
  | cons c rest ih =>
    have hc : ¬ c = sp := fun hh => h (by rw [hh]; exact List.mem_cons_self sp rest)
    have hr : sp ∉ rest := fun hh => h (List.mem_cons_of_mem c hh)
    simp only [splitSp, splitCh] at *
    rw [if_neg hc, ih hr]

theorem splitSp_append_sp {x w : List Char} (h : sp ∉ w) :
    splitSp (x ++ sp :: w) = splitSp x ++ [w] := by
  induction x with
  | nil =>
    simp only [List.nil_append, splitSp, splitCh, if_pos rfl]
    rw [show splitCh sp w = splitSp w from rfl, splitSp_of_not_mem h]
    rfl
  | cons c x2 ih =>
    simp only [List.cons_append, splitSp, splitCh] at *
    by_cases hc : c = sp
    · rw [if_pos hc, if_pos hc]
      simp only [List.append_eq, List.cons_append]
      rw [ih]
    · rw [if_neg hc, if_neg hc]
      rcases hw : splitCh sp (x2 ++ sp :: w) with _ | ⟨w0, ws0⟩
      · exact absurd hw (splitCh_ne_nil sp _)
      · rw [hw] at ih
        rcases hx : splitCh sp x2 with _ | ⟨y0, ys0⟩
        · exact absurd hx (splitCh_ne_nil sp x2)
        · rw [hx] at ih
          simp only [List.cons_append] at ih
          rcases List.cons.injEq .. ▸ ih with ⟨h1, h2⟩
          subst h1
          subst h2
          rfl

/-! ## The wrap loop invariant -/

theorem wrapFold_spec (m : Nat) (allW : List (List Char))
    (hw : ∀ w ∈ allW, sp ∉ w) :
    ∀ (wsl : List (List Char)) (st : List (List Char) × List Char),
      (∀ w ∈ wsl, w ∈ allW) →
      (∀ line ∈ st.1, line.length ≤ m ∨ (sp ∉ line ∧ line ∈ allW.map jsTrim)) →
      ((jsTrim st.2).length ≤ m ∨ st.2 ∈ allW) →
      (∀ line ∈ (wsl.foldl (wrapStep m) st).1,
          line.length ≤ m ∨ (sp ∉ line ∧ line ∈ allW.map jsTrim)) ∧
      ((jsTrim (wsl.foldl (wrapStep m) st).2).length ≤ m ∨
          (wsl.foldl (wrapStep m) st).2 ∈ allW) := by
  intro wsl
  induction wsl with
  | nil => intro st _ hl hc; exact ⟨hl, hc⟩
  | cons w rest ih =>
    intro st hsub hl hc
    simp only [List.foldl_cons]
    apply ih (wrapStep m st w) (fun x hx => hsub x (List.mem_cons_of_mem w hx))
    · intro line hline
      unfold wrapStep at hline
      by_cases hif : m < (jsTrim (st.2 ++ sp :: w)).length
      · rw [if_pos hif] at hline
        simp only at hline
        rcases List.mem_append.1 hline with h1 | h2
        · exact hl line h1
        · rw [List.mem_singleton] at h2
          subst h2
          rcases hc with hlen | hmem
          · exact Or.inl hlen
          · refine Or.inr ⟨fun hsp => hw st.2 hmem (mem_of_mem_jsTrim hsp), ?_⟩
            exact List.mem_map_of_mem jsTrim hmem
      · rw [if_neg hif] at hline
        exact hl line hline
    · unfold wrapStep
      by_cases hif : m < (jsTrim (st.2 ++ sp :: w)).length
      · rw [if_pos hif]
        exact Or.inr (hsub w (List.mem_cons_self w rest))
      · rw [if_neg hif]
        exact Or.inl (le_trans (length_jsTrim_le _) (Nat.le_of_not_lt hif))

/-- C5.  Every line `wrapLines` produces either fits in `maxChars` or is a
single space-free word of the input (the trim of one piece of the space
split), never a split fragment of one. -/
theorem wrap_lines_bounded (s : List Char) (m : Nat) (hm : 0 < m) :
    ∀ line ∈ wrapLines s m,
      line.length ≤ m ∨ (sp ∉ line ∧ line ∈ (splitSp s).map jsTrim) := by
  intro line hline
  have hfold := wrapFold_spec m (splitSp s)
      (fun w hwm => sp_not_mem_of_mem_splitCh hwm)
      (splitSp s) ([], []) (fun w hwm => hwm)
      (by intro l hl; simp at hl)
      (Or.inl (by simp [jsTrim]))
  rcases hfold with ⟨hlines, hcur⟩
  unfold wrapLines at hline
  simp only at hline
  by_cases hc : ((splitSp s).foldl (wrapStep m) ([], [])).2 = []
  · rw [if_pos hc] at hline
    exact hlines line hline
  · rw [if_neg hc] at hline
    rcases List.mem_append.1 hline with h1 | h2
    · exact hlines line h1
    · rw [List.mem_singleton] at h2
      subst h2
      rcases hcur with hlen | hmem
      · exact Or.inl hlen
      · refine Or.inr ⟨?_, List.mem_map_of_mem jsTrim hmem⟩
        exact fun hsp =>
          sp_not_mem_of_mem_splitCh hmem (mem_of_mem_jsTrim hsp)

/-- C5 witness: wrapping `hello world` at 5 produces the line `hello`,
which fits. -/
theorem wrap_lines_bounded_witness :
    "hello".data.length ≤ 5 ∨
      (sp ∉ "hello".data ∧ "hello".data ∈ (splitSp "hello world".data).map jsTrim) :=
  wrap_lines_bounded "hello world".data 5 (by decide) "hello".data (by decide)

/-! ## Emptiness of the wrap result -/

theorem mem_joinTail {c : Char} :
    ∀ ws, c ∈ joinTail ws → c = sp ∨ ∃ w ∈ ws, c ∈ w := by
  intro ws
  induction ws with
  | nil => intro h; simp [joinTail] at h
  | cons w rest ih =>
    intro h
    simp only [joinTail, List.cons_append, List.mem_cons, List.mem_append] at h
    rcases h with rfl | h | h
    · exact Or.inl rfl
    · exact Or.inr ⟨w, List.mem_cons_self w rest, h⟩
    · rcases ih h with h1 | ⟨w2, hw2, hc2⟩
      · exact Or.inl h1
      · exact Or.inr ⟨w2, List.mem_cons_of_mem w hw2, hc2⟩

theorem mem_joinSp {c : Char} :
    ∀ ws, c ∈ joinSp ws → c = sp ∨ ∃ w ∈ ws, c ∈ w := by
  intro ws h
  cases ws with
  | nil => simp [joinSp] at h
  | cons w rest =>
    simp only [joinSp, List.mem_append] at h
    rcases h with h | h
    · exact Or.inr ⟨w, List.mem_cons_self w rest, h⟩
    · rcases mem_joinTail rest h with h1 | ⟨w2, hw2, hc2⟩
      · exact Or.inl h1
      · exact Or.inr ⟨w2, List.mem_cons_of_mem w hw2, hc2⟩

theorem wrapFold_eq_nil (m : Nat) :
    ∀ (wsl : List (List Char)) (lines : List (List Char)) (cur : List Char),
      wsl.foldl (wrapStep m) (lines, cur) = ([], []) →
      lines = [] ∧ (∀ c ∈ cur, jsWhitespace c = true) ∧
        (∀ w ∈ wsl, ∀ c ∈ w, jsWhitespace c = true) := by
  intro wsl
  induction wsl with
  | nil =>
    intro lines cur h
    simp only [List.foldl_nil, Prod.mk.injEq] at h
    refine ⟨h.1, ?_, ?_⟩
    · rw [h.2]; intro c hc; simp at hc
    · intro w hw; simp at hw
  | cons w rest ih =>
    intro lines cur h
    simp only [List.foldl_cons] at h
    unfold wrapStep at h
    by_cases hif : m < (jsTrim (cur ++ sp :: w)).length
    · rw [if_pos hif] at h
      rcases ih _ _ h with ⟨h1, _, _⟩
      simp at h1
    · rw [if_neg hif] at h
      rcases ih _ _ h with ⟨h1, h2, h3⟩
      have htest : jsTrim (cur ++ sp :: w) = [] := by
        rcases hh : jsTrim (cur ++ sp :: w) with _ | ⟨a, t⟩
        · rfl
        · have hwa := head?_jsTrim_not_ws (l := cur ++ sp :: w) (by rw [hh]; rfl)
          have := h2 a (by rw [hh]; exact List.mem_cons_self a t)
          rw [this] at hwa
          exact absurd hwa (by decide)
      have hall := jsTrim_eq_nil_iff.1 htest
      refine ⟨h1, ?_, ?_⟩
      · intro c hc
        exact hall c (List.mem_append.2 (Or.inl hc))
      · intro w2 hw2 c hc
        rcases List.mem_cons.1 hw2 with rfl | hmem
        · exact hall c (List.mem_append.2 (Or.inr (List.mem_cons_of_mem sp hc)))
        · exact h3 w2 hmem c hc

theorem wrapFold_all_ws (m : Nat) :
    ∀ (wsl : List (List Char)) (lines : List (List Char)),
      (∀ w ∈ wsl, ∀ c ∈ w, jsWhitespace c = true) →
      wsl.foldl (wrapStep m) (lines, []) = (lines, []) := by
  intro wsl
  induction wsl with
  | nil => intro lines _; rfl
  | cons w rest ih =>
    intro lines hws
    simp only [List.foldl_cons]
    unfold wrapStep
    have htest : jsTrim (([] : List Char) ++ sp :: w) = [] := by
      apply jsTrim_eq_nil_iff.2
      intro c hc
      simp only [List.nil_append, List.mem_cons] at hc
      rcases hc with rfl | hc
      · decide
      · exact hws w (List.mem_cons_self w rest) c hc
    simp only [htest, List.length_nil]
    rw [if_neg (by omega)]
    exact ih lines fun w2 hw2 => hws w2 (List.mem_cons_of_mem w hw2)

/-- C6 (amended).  `wrapLines` returns the empty sequence exactly on
all-whitespace input (in particular whitespace-only input yields no line at
all, not one empty line); any input with a non-whitespace character yields a
non-empty sequence. -/
theorem wrap_lines_eq_nil_iff (s : List Char) (m : Nat) :
    wrapLines s m = [] ↔ ∀ c ∈ s, jsWhitespace c = true := by
  constructor
  · intro h
    unfold wrapLines at h
    simp only at h
    by_cases hc : ((splitSp s).foldl (wrapStep m) ([], [])).2 = []
    · rw [if_pos hc] at h
      have hfold : (splitSp s).foldl (wrapStep m) ([], []) = ([], []) := by
        rcases hr : (splitSp s).foldl (wrapStep m) ([], []) with ⟨a, b⟩
        rw [hr] at h hc
        simp only at h hc
        rw [h, hc]
      rcases wrapFold_eq_nil m (splitSp s) [] [] hfold with ⟨_, _, h3⟩
      intro c hcs
      rw [← joinSp_splitSp s] at hcs
      rcases mem_joinSp _ hcs with rfl | ⟨w, hw, hcw⟩
      · decide
      · exact h3 w hw c hcw
    · rw [if_neg hc] at h
      simp at h
  · intro h
    have hws : ∀ w ∈ splitSp s, ∀ c ∈ w, jsWhitespace c = true :=
      fun w hw c hc => h c (mem_of_mem_splitCh hw hc)
    unfold wrapLines
    simp only
    rw [wrapFold_all_ws m (splitSp s) [] hws]
    rfl

/-- C6 counterexample: whitespace-only input produces the empty sequence —
not a non-empty sequence with one empty line as the claim states. -/
theorem wrap_lines_whitespace_counterexample :
    wrapLines "   ".data 30 = [] ∧ wrapLines "   ".data 30 ≠ [[]] := by
  constructor <;> decide

/-! ## Re-wrapping a produced line -/

theorem clean_word_trim {w : List Char} (hne : w ≠ [])
    (hclean : ∀ c ∈ w, jsWhitespace c = false) : jsTrim w = w := by
  apply jsTrim_eq_self_of
  · intro c hc
    exact hclean c (List.mem_of_mem_head? hc)
  · intro c hc
    rcases List.getLast?_eq_some_iff.1 hc with ⟨y, rfl⟩
    exact hclean c (by simp)

theorem sp_not_mem_of_clean {w : List Char}
    (hclean : ∀ c ∈ w, jsWhitespace c = false) : sp ∉ w := by
  intro hmem
  have := hclean sp hmem
  simp [sp, jsWhitespace] at this

theorem word_cleanPieces {w : List Char} (hne : w ≠ [])
    (hclean : ∀ c ∈ w, jsWhitespace c = false) : cleanPieces w := by
  refine ⟨clean_word_trim hne hclean, ?_⟩
  intro w2 hw2
  rw [splitSp_of_not_mem (sp_not_mem_of_clean hclean)] at hw2
  rw [List.mem_singleton] at hw2
  subst hw2
  exact ⟨hne, hclean⟩

theorem cleanPieces_ne_nil {l : List Char} (h : cleanPieces l) : l ≠ [] := by
  intro hnil
  subst hnil
  have := (h.2 [] (by simp [splitSp, splitCh])).1
  exact this rfl

theorem clean_append_trim {cur w : List Char} (hcur : cur ≠ [])
    (htrim : jsTrim cur = cur) (hwne : w ≠ [])
    (hclean : ∀ c ∈ w, jsWhitespace c = false) :
    jsTrim (cur ++ sp :: w) = cur ++ sp :: w := by
  apply jsTrim_eq_self_of
  · intro c hc
    rw [List.head?_append_of_ne_nil cur hcur] at hc
    exact head_not_ws_of_trimmed htrim c hc
  · intro c hc
    rw [List.getLast?_append_of_ne_nil cur (by simp)] at hc
    rw [show sp :: w = [sp] ++ w from rfl,
      List.getLast?_append_of_ne_nil [sp] hwne] at hc
    rcases List.getLast?_eq_some_iff.1 hc with ⟨y, hy⟩
    exact hclean c (by rw [hy]; simp)

theorem cleanPieces_append {cur w : List Char} (hcp : cleanPieces cur)
    (hwne : w ≠ []) (hclean : ∀ c ∈ w, jsWhitespace c = false) :
    cleanPieces (cur ++ sp :: w) := by
  have hcur := cleanPieces_ne_nil hcp
  refine ⟨clean_append_trim hcur hcp.1 hwne hclean, ?_⟩
  intro w2 hw2
  rw [splitSp_append_sp (sp_not_mem_of_clean hclean)] at hw2
  rcases List.mem_append.1 hw2 with h1 | h2
  · exact hcp.2 w2 h1
  · rw [List.mem_singleton] at h2
    subst h2
    exact ⟨hwne, hclean⟩

theorem wrapFold_good (m : Nat) :
    ∀ (wsl : List (List Char)) (st : List (List Char) × List Char),
      (∀ w ∈ wsl, ∀ c ∈ w, jsWhitespace c = false) →
      (st.2 = [] ∨ cleanPieces st.2) →
      (∀ line ∈ st.1, line = [] ∨ cleanPieces line) →
      ((wsl.foldl (wrapStep m) st).2 = [] ∨
        cleanPieces (wsl.foldl (wrapStep m) st).2) ∧
      (∀ line ∈ (wsl.foldl (wrapStep m) st).1, line = [] ∨ cleanPieces line) := by
  intro wsl
  induction wsl with
  | nil => intro st _ hc hl; exact ⟨hc, hl⟩
  | cons w rest ih =>
    intro st hclean hc hl
    have hw : ∀ c ∈ w, jsWhitespace c = false :=
      hclean w (List.mem_cons_self w rest)
    have hrest : ∀ w2 ∈ rest, ∀ c ∈ w2, jsWhitespace c = false :=
      fun w2 hw2 => hclean w2 (List.mem_cons_of_mem w hw2)
    simp only [List.foldl_cons]
    -- the new accumulator of this step
    have hcur2 : (wrapStep m st w).2 = [] ∨ cleanPieces (wrapStep m st w).2 := by
      unfold wrapStep
      by_cases hif : m < (jsTrim (st.2 ++ sp :: w)).length
      · rw [if_pos hif]
        rcases hwe : w with _ | ⟨a, t⟩
        · exact Or.inl rfl
        · exact Or.inr (word_cleanPieces (by simp) (hwe ▸ hw))
      · rw [if_neg hif]
        simp only
        rcases hc with hnil | hcp
        · rw [hnil, List.nil_append, jsTrim_ws_cons (by decide)]
          rcases hwe : w with _ | ⟨a, t⟩
          · exact Or.inl rfl
          · rw [← hwe, clean_word_trim (by rw [hwe]; simp) hw]
            exact Or.inr (word_cleanPieces (by rw [hwe]; simp) hw)
        · rcases hwe : w with _ | ⟨a, t⟩
          · rw [show st.2 ++ sp :: ([] : List Char) = st.2 ++ [sp] from rfl,
              jsTrim_concat_ws (by decide), hcp.1]
            exact Or.inr hcp
          · rw [← hwe,
              clean_append_trim (cleanPieces_ne_nil hcp) hcp.1 (by rw [hwe]; simp)
                (hwe ▸ hw)]
            exact Or.inr (cleanPieces_append hcp (by rw [hwe]; simp) (hwe ▸ hw))
    -- the lines after this step
    have hl2 : ∀ line ∈ (wrapStep m st w).1, line = [] ∨ cleanPieces line := by
      unfold wrapStep
      by_cases hif : m < (jsTrim (st.2 ++ sp :: w)).length
      · rw [if_pos hif]
        intro line hline
        simp only at hline
        rcases List.mem_append.1 hline with h1 | h2
        · exact hl line h1
        · rw [List.mem_singleton] at h2
          subst h2
          rcases hc with hnil | hcp
          · rw [hnil]; exact Or.inl rfl
          · rw [hcp.1]; exact Or.inr hcp
      · rw [if_neg hif]
        exact hl
    exact ih (wrapStep m st w) hrest hcur2 hl2

theorem rejoin_fold (m : Nat) :
    ∀ (wsl : List (List Char)) (lines : List (List Char)) (cur : List Char),
      (∀ w ∈ wsl, w ≠ [] ∧ ∀ c ∈ w, jsWhitespace c = false) →
      cur ≠ [] → jsTrim cur = cur →
      (cur ++ joinTail wsl).length ≤ m →
      wsl.foldl (wrapStep m) (lines, cur) = (lines, cur ++ joinTail wsl) := by
  intro wsl
  induction wsl with
  | nil =>
    intro lines cur _ _ _ _
    simp [joinTail]
  | cons w rest ih =>
    intro lines cur hws hne htrim hlen
    rcases hws w (List.mem_cons_self w rest) with ⟨hwne, hwclean⟩
    have htest : jsTrim (cur ++ sp :: w) = cur ++ sp :: w :=
      clean_append_trim hne htrim hwne hwclean
    have hlen2 : (cur ++ sp :: w).length ≤ m := by
      have : (cur ++ joinTail (w :: rest)).length =
          (cur ++ sp :: w).length + (joinTail rest).length := by
        simp only [joinTail, List.length_append, List.length_cons]
        omega
      omega
    simp only [List.foldl_cons]
    have hstep : wrapStep m (lines, cur) w = (lines, cur ++ sp :: w) := by
      unfold wrapStep
      simp only [htest]
      rw [if_neg (by omega)]
    rw [hstep]
    have hres := ih lines (cur ++ sp :: w)
      (fun w2 hw2 => hws w2 (List.mem_cons_of_mem w hw2))
      (by simp) htest
      (by
        have : ((cur ++ sp :: w) ++ joinTail rest).length =
            (cur ++ joinTail (w :: rest)).length := by
          simp [joinTail]
        omega)
    rw [hres]
    simp [joinTail]

theorem rewrap_single (m : Nat) (line : List Char) (hcp : cleanPieces line)
    (hlen : line.length ≤ m) : wrapLines line m = [line] := by
  have hne := cleanPieces_ne_nil hcp
  rcases hsp : splitSp line with _ | ⟨w0, rest⟩
  · exact absurd hsp (splitCh_ne_nil sp line)
  have hjoin : w0 ++ joinTail rest = line := by
    conv_rhs => rw [← joinSp_splitSp line]
    rw [hsp]
    rfl
  rcases hcp.2 w0 (by rw [hsp]; exact List.mem_cons_self w0 rest) with ⟨hw0ne, hw0c⟩
  have hfold : (splitSp line).foldl (wrapStep m) ([], []) = ([], line) := by
    rw [hsp]
    simp only [List.foldl_cons]
    have hstep : wrapStep m ([], []) w0 = ([], w0) := by
      unfold wrapStep
      simp only [List.nil_append]
      rw [jsTrim_ws_cons (by decide), clean_word_trim hw0ne hw0c]
      have : w0.length ≤ m := by
        have : (w0 ++ joinTail rest).length = line.length := by rw [hjoin]
        simp only [List.length_append] at this
        omega
      rw [if_neg (by omega)]
    rw [hstep]
    have hres := rejoin_fold m rest [] w0
      (fun w2 hw2 => hcp.2 w2 (by rw [hsp]; exact List.mem_cons_of_mem w0 hw2))
      hw0ne (clean_word_trim hw0ne hw0c)
      (by rw [hjoin]; exact hlen)
    rw [hres, hjoin]
  unfold wrapLines
  simp only [hfold]
  rw [if_neg hne, hcp.1]
  rfl

/-- C7 (amended).  Re-wrapping is idempotent line by line: on input whose
whitespace is only spaces, every produced line that is non-empty and within
the limit re-wraps to exactly itself.  (The newline-joined form of the claim
fails: the wrapper splits on spaces only, so a newline joiner glues two
adjacent lines into one unbreakable word — see the counterexample.) -/
theorem wrap_rewrap_line (s : List Char) (m : Nat)
    (hs : ∀ c ∈ s, c = sp ∨ jsWhitespace c = false) :
    ∀ line ∈ wrapLines s m, line ≠ [] → line.length ≤ m →
      wrapLines line m = [line] := by
  intro line hline hne hlen
  have hwords : ∀ w ∈ splitSp s, ∀ c ∈ w, jsWhitespace c = false := by
    intro w hw c hc
    rcases hs c (mem_of_mem_splitCh hw hc) with rfl | h2
    · exact absurd hc (sp_not_mem_of_mem_splitCh hw)
    · exact h2
  have hgood := wrapFold_good m (splitSp s) ([], []) hwords
    (Or.inl rfl) (by intro l hl; simp at hl)
  have hlinegood : line = [] ∨ cleanPieces line := by
    unfold wrapLines at hline
    simp only at hline
    by_cases hc : ((splitSp s).foldl (wrapStep m) ([], [])).2 = []
    · rw [if_pos hc] at hline
      exact hgood.2 line hline
    · rw [if_neg hc] at hline
      rcases List.mem_append.1 hline with h1 | h2
      · exact hgood.2 line h1
      · rw [List.mem_singleton] at h2
        subst h2
        rcases hgood.1 with h3 | h3
        · exact absurd h3 hc
        · rw [h3.1]
          exact Or.inr h3
  rcases hlinegood with h | h
  · exact absurd h hne
  · exact rewrap_single m line h hlen

/-- C7 witness: for `hello world out there` at 11 the second line is
`out there`, non-empty and within the limit, and it re-wraps to itself. -/
theorem wrap_rewrap_line_witness :
    wrapLines "out there".data 11 = ["out there".data] :=
  wrap_rewrap_line "hello world out there".data 11 (by decide)
    "out there".data (by decide) (by decide) (by decide)

/-- C7 counterexample: the claim as stated — wrapping the newline-joined
result again with the same limit reproduces the boundaries — fails at
`aa bb cc` with limit 5: the first wrap gives `aa bb` / `cc`, the newline
join glues them into the word `bb\ncc`, and the re-wrap gives `aa` /
`bb\ncc`. -/
theorem wrap_rewrap_counterexample :
    wrapLines (List.intercalate [nl] (wrapLines "aa bb cc".data 5)) 5 ≠
      wrapLines "aa bb cc".data 5 := by
  decide

/-! ## Escaping -/

theorem replaceChar_append (c : Char) (rep : List Char) :
    ∀ x y, replaceChar c rep (x ++ y) = replaceChar c rep x ++ replaceChar c rep y := by
  intro x y
  induction x with
  | nil => rfl
  | cons a t ih =>
    simp only [List.cons_append, replaceChar, List.append_eq, ih, List.append_assoc]

theorem replaceChar_eq_flatMap (c : Char) (rep : List Char) (s : List Char) :
    replaceChar c rep s = s.flatMap fun a => if a = c then rep else [a] := by
  induction s with
  | nil => rfl
  | cons a t ih => simp only [replaceChar, List.flatMap_cons, ih]

theorem replaceChar_flatMap (c : Char) (rep : List Char) (g : Char → List Char)
    (s : List Char) :
    replaceChar c rep (s.flatMap g) = s.flatMap fun a => replaceChar c rep (g a) := by
  induction s with
  | nil => rfl
  | cons a t ih => simp only [List.flatMap_cons, replaceChar_append, ih]

/-- C3 (amended).  The text escaping of the builders escapes all three
metacharacters — each backslash, single quote and colon of the input becomes
a backslash-prefixed pair in the emitted fragment — but the escaping applied
to file-path strings (font files, text-block files) covers only backslash
and colon: a single quote in a path passes through bare; and the part_002
variant deletes the metacharacters instead of escaping them. -/
theorem escaping_characterized :
    (∀ s, escapeFFmpegText s = s.flatMap escTripleChar) ∧
    (∀ s, escapePath s = s.flatMap escPathChar) ∧
    (∀ s, escapeFFmpegTextStrip s =
      s.flatMap fun a => if a ∈ strippedChars then [] else [a]) := by
  refine ⟨?_, ?_, ?_⟩
  · intro s
    unfold escapeFFmpegText
    rw [replaceChar_eq_flatMap bs [bs, bs] s, replaceChar_flatMap sq [bs, sq],
      replaceChar_flatMap ':' [bs, ':']]
    congr 1
    funext a
    by_cases h1 : a = bs
    · subst h1; decide
    by_cases h2 : a = sq
    · subst h2; decide
    by_cases h3 : a = ':'
    · subst h3; decide
    simp [replaceChar, escTripleChar, h1, h2, h3]
  · intro s
    unfold escapePath
    rw [replaceChar_eq_flatMap bs [bs, bs] s, replaceChar_flatMap ':' [bs, ':']]
    congr 1
    funext a
    by_cases h1 : a = bs
    · subst h1; decide
    by_cases h2 : a = ':'
    · subst h2; decide
    simp [replaceChar, escPathChar, h1, h2]
  · intro s
    unfold escapeFFmpegTextStrip
    rw [replaceChar_eq_flatMap bs [] s, replaceChar_flatMap ':' [],
      replaceChar_flatMap sq [], replaceChar_flatMap '%' [],
      replaceChar_flatMap dq [], replaceChar_flatMap (Char.ofNat 0x201c) [],
      replaceChar_flatMap (Char.ofNat 0x201d) [],
      replaceChar_flatMap (Char.ofNat 0x2018) [],
      replaceChar_flatMap (Char.ofNat 0x2019) []]
    congr 1
    funext a
    by_cases h1 : a = bs
    · subst h1; decide
    by_cases h2 : a = ':'
    · subst h2; decide
    by_cases h3 : a = sq
    · subst h3; decide
    by_cases h4 : a = '%'
    · subst h4; decide
    by_cases h5 : a = dq
    · subst h5; decide
    by_cases h6 : a = Char.ofNat 0x201c
    · subst h6; decide
    by_cases h7 : a = Char.ofNat 0x201d
    · subst h7; decide
    by_cases h8 : a = Char.ofNat 0x2018
    · subst h8; decide
    by_cases h9 : a = Char.ofNat 0x2019
    · subst h9; decide
    have hnm : a ∉ strippedChars := by
      simp only [strippedChars, List.mem_cons, List.not_mem_nil]
      tauto
    simp [replaceChar, h1, h2, h3, h4, h5, h6, h7, h8, h9, hnm]

/-- C3 counterexample: the font-file path built from the user-controlled
`FontStyle` value `a'b` reaches the filter graph with its single quote
unescaped (only backslash and colon are escaped on the path), so the claim
that every interpolated file-path string has backslash, quote AND colon
escaped is false; and the part_002 text variant deletes the quote instead of
escaping it. -/
theorem escaping_counterexample :
    hasUnescaped sq (escapePath (dynFontFile (some quoteStyle))) = true ∧
    escapeFFmpegTextStrip quoteStyle = 'a' :: 'b' :: [] := by
  constructor <;> decide

/-! ## Validation (C1) -/

/-- C1 (amended).  `composeDynamic` and `composeImage` raise their
validation error exactly when the RAW `elements` array is empty; a
non-empty array whose elements are all malformed is NOT rejected — the
build succeeds and the subprocess is spawned on just the base canvas
(though no scratch file is staged for the skipped elements). -/
theorem build_error_iff_raw_empty (p : DPayload) :
    (isErr (composeDynamicBuild p) = true ↔ p.elements = []) ∧
    (isErr (composeImageBuild p) = true ↔ p.elements = []) := by
  constructor
  · by_cases h : p.elements = [] <;> simp [composeDynamicBuild, isErr, h]
  · by_cases h : p.elements = [] <;> simp [composeImageBuild, isErr, h]

/-- C1 counterexample: a payload with one malformed element (Type `Text`
but no string Value) has zero usable layers after filtering, yet the build
does NOT fail — it reaches the subprocess with only the canvas-to-out copy
stage and stages no scratch file. -/
theorem zero_usable_layers_counterexample :
    isErr (composeDynamicBuild malformedOnlyPayload) = false ∧
    (buildGetD (composeDynamicBuild malformedOnlyPayload)).temps = [] ∧
    (buildGetD (composeDynamicBuild malformedOnlyPayload)).stages =
      [⟨[.stream 0], .outL, .copyF⟩] := by
  refine ⟨by decide, by decide, by decide⟩

/-! ## Cleanup masking (C2) -/

/-- C2 (code bug).  When ffmpeg fails without creating the output file, the
unguarded `fs.unlinkSync(outputImg)` in the `finally` block of
`composeDynamic` throws, and that exception REPLACES the ProcessingError the
caller should have observed.  On the paths where the output file exists the
claimed behaviour holds (error surfaced on subprocess failure, artifact on
success). -/
theorem cleanup_masks_processing_error :
    composeDynamicRun ⟨false, false⟩ = .cleanupFailure ∧
    composeDynamicRun ⟨false, false⟩ ≠ .processingError ∧
    composeDynamicRun ⟨false, true⟩ = .processingError ∧
    composeDynamicRun ⟨true, true⟩ = .artifact := by
  refine ⟨rfl, by decide, rfl, rfl⟩

/-! ## Duration precedence (C8) -/

/-- C8 (amended).  In `createVideo` a positive explicit `length` is applied
as a hard `-t` trim and SUPPRESSES `-shortest` (the two sit in an else-if),
so the explicit length takes precedence there; but in part_000
`composeVideo` the two pushes are independent ifs, so with both audio and a
positive length the command carries BOTH `-shortest` and `-t`, and the
explicit length does not take precedence. -/
theorem explicit_length_precedence (b : Bool) (n : Int) (hn : 0 < n) :
    (CmdTok.tDur n ∈ createVideoCmdParts b (some n) ∧
     CmdTok.shortestTok ∉ createVideoCmdParts b (some n)) ∧
    (CmdTok.shortestTok ∈ composeVideoCmdParts true (some n) ∧
     CmdTok.tDur n ∈ composeVideoCmdParts true (some n)) := by
  have hlen : lengthPos (some n) = true := by simp [lengthPos, hn]
  refine ⟨⟨?_, ?_⟩, ?_, ?_⟩
  · cases b <;>
      simp [createVideoCmdParts, createVideoTail, videoInputs, videoMaps, hlen]
  · cases b <;>
      simp [createVideoCmdParts, createVideoTail, videoInputs, videoMaps, hlen]
  · simp [composeVideoCmdParts, composeVideoTail, videoInputs, videoMaps, hlen]
  · simp [composeVideoCmdParts, composeVideoTail, videoInputs, videoMaps, hlen]

/-- C8 witness at audio present and length 10. -/
theorem explicit_length_precedence_witness :
    (0 : Int) < 10 ∧
    ((CmdTok.tDur 10 ∈ createVideoCmdParts true (some 10) ∧
      CmdTok.shortestTok ∉ createVideoCmdParts true (some 10)) ∧
     (CmdTok.shortestTok ∈ composeVideoCmdParts true (some 10) ∧
      CmdTok.tDur 10 ∈ composeVideoCmdParts true (some 10))) :=
  ⟨by decide, explicit_length_precedence true 10 (by decide)⟩

/-- C8 counterexample: in part_000 `composeVideo`, with a secondary audio
track and explicit length 10 the assembled command retains `-shortest`
alongside `-t 10` — the explicit duration does not take precedence over
stop-at-shortest, refuting the claim for this compose operation. -/
theorem shortest_retained_counterexample :
    CmdTok.shortestTok ∈ composeVideoCmdParts true (some 10) ∧
    CmdTok.tDur 10 ∈ composeVideoCmdParts true (some 10) := by
  constructor <;> decide

/-! ## Audio wiring (C9) -/

/-- C9 (amended).  With a secondary audio track the command adds it as an
additional input and maps it as the output audio (`-map 1:a`, overriding the
base audio); without one it maps the base audio only optionally
(`-map 0:a?`).  But the infinite-loop flag `-stream_loop -1` is placed
before `-i video`, so it applies to the BASE VIDEO input (looping a short
video under a longer audio), not to the audio input as the claim states. -/
theorem audio_mapping_and_loop :
    videoInputs true = [.streamLoop, .minusOne, .inputVideo, .inputAudio] ∧
    videoInputs false = [.inputVideo] ∧
    videoMaps true = [.mapOut, .mapOneAudio] ∧
    videoMaps false = [.mapOut, .mapZeroAudioOpt] ∧
    afterStreamLoop (videoInputs true) = some .inputVideo :=
  ⟨rfl, rfl, rfl, rfl, rfl⟩

/-- C9 counterexample: the input that `-stream_loop -1` attaches to (the
`-i` right after it) is the base video, not the secondary audio. -/
theorem loop_targets_video_counterexample :
    afterStreamLoop (videoInputs true) ≠ some CmdTok.inputAudio ∧
    afterStreamLoop (videoInputs true) = some CmdTok.inputVideo := by
  constructor <;> decide

/-! ## Unconditional 1080x1920 scale (C10) -/

/-- C10.  The first chain of every `createVideo` build scales the base
video to exactly 1080x1920, and the whole build is independent of the
payload's `ratio` field — the canvas-ratio lookup is never consulted on
this path. -/
theorem createVideo_scale_fixed (p : CPayload) (r : Option (List Char))
    (ae ve : Bool) :
    (createVideoChains p.elements).head? = some (.scaleBase 1080 1920) ∧
    createVideoBuild { p with ratioStr := r } ae ve = createVideoBuild p ae ve := by
  constructor
  · rfl
  · cases p; rfl

/-! ## Graph label chains (C4) -/

theorem mem_streams {l : Label} {n : Nat} :
    l ∈ streams n ↔ ∃ k, k < n ∧ l = .stream k := by
  simp only [streams, List.mem_map, List.mem_range]
  constructor
  · rintro ⟨k, hk, rfl⟩; exact ⟨k, hk, rfl⟩
  · rintro ⟨k, hk, rfl⟩; exact ⟨k, hk, rfl⟩

theorem stream_zero_mem {n : Nat} (h : 1 ≤ n) : Label.stream 0 ∈ streams n :=
  mem_streams.2 ⟨0, h, rfl⟩

theorem streams_subset {n : Nat} : ∀ l ∈ streams n, l ∈ streams (n + 1) := by
  intro l hl
  rcases mem_streams.1 hl with ⟨k, hk, rfl⟩
  exact mem_streams.2 ⟨k, by omega, rfl⟩

theorem outputsOf_append (xs ys : List Stage) :
    outputsOf (xs ++ ys) = outputsOf xs ++ outputsOf ys := by
  simp [outputsOf]

theorem chainOK_append (avail : List Label) (xs ys : List Stage) :
    chainOK avail (xs ++ ys) =
      (chainOK avail xs && chainOK ((outputsOf xs).reverse ++ avail) ys) := by
  induction xs generalizing avail with
  | nil => simp [chainOK, outputsOf]
  | cons s xs ih =>
    simp only [List.cons_append, chainOK, List.append_eq, ih, outputsOf,
      List.map_cons, List.reverse_cons, List.append_assoc, List.singleton_append,
      List.nil_append, Bool.and_assoc]

theorem chainOK_mono :
    ∀ (ss : List Stage) (avail avail2 : List Label),
      (∀ l ∈ avail, l ∈ avail2) →
      chainOK avail ss = true → chainOK avail2 ss = true := by
  intro ss
  induction ss with
  | nil => intro _ _ _ _; rfl
  | cons s rest ih =>
    intro avail avail2 hsub h
    simp only [chainOK, Bool.and_eq_true, List.all_eq_true, decide_eq_true_eq] at h ⊢
    refine ⟨fun l hl => hsub l (h.1 l hl), ?_⟩
    apply ih (s.outp :: avail) (s.outp :: avail2)
    · intro l hl
      rcases List.mem_cons.1 hl with rfl | h2
      · exact List.mem_cons_self _ _
      · exact List.mem_cons_of_mem _ (hsub l h2)
    · exact h.2

theorem chainOK_snoc (avail : List Label) (xs : List Stage) (s : Stage)
    (hxs : chainOK avail xs = true)
    (hs : ∀ l ∈ s.inps, l ∈ (outputsOf xs).reverse ++ avail) :
    chainOK avail (xs ++ [s]) = true := by
  rw [chainOK_append, Bool.and_eq_true]
  refine ⟨hxs, ?_⟩
  simp only [chainOK, Bool.and_true, List.all_eq_true, decide_eq_true_eq]
  exact hs

theorem prev_avail {st : DState} (hn : 1 ≤ st.nInputs)
    (hprev : st.prev = .stream 0 ∨ st.prev ∈ outputsOf st.stages) :
    st.prev ∈ (outputsOf st.stages).reverse ++ streams st.nInputs := by
  rcases hprev with h | h
  · exact List.mem_append.2 (Or.inr (h ▸ stream_zero_mem hn))
  · exact List.mem_append.2 (Or.inl (List.mem_reverse.2 h))

theorem nodup_snoc {outs : List Label} {a : Label} (hnd : outs.Nodup)
    (hna : a ∉ outs) : (outs ++ [a]).Nodup := by
  rw [List.nodup_append]
  exact ⟨hnd, List.nodup_singleton a, fun x hx hx2 => by
    rw [List.mem_singleton] at hx2
    exact hna (hx2 ▸ hx)⟩

theorem InvAt_to_inner {idx : Nat} {st : DState} (h : InvAt idx st) :
    InnerInv idx 0 st := by
  obtain ⟨h1, h2, h3, h4, h5⟩ := h
  exact ⟨h1, h2, h3, fun l hl => ⟨(h4 l hl).1, Or.inl (h4 l hl).2⟩, h5⟩

theorem inner_to_InvAt {idx i : Nat} {st : DState} (h : InnerInv idx i st) :
    InvAt (idx + 1) st := by
  obtain ⟨h1, h2, h3, h4, h5⟩ := h
  refine ⟨h1, h2, h3, fun l hl => ⟨(h4 l hl).1, ?_⟩, h5⟩
  rcases (h4 l hl).2 with hlt | ⟨j, _, rfl⟩
  · omega
  · simp [lIdx]

theorem InvAt_mono {idx idx2 : Nat} {st : DState} (hle : idx ≤ idx2)
    (h : InvAt idx st) : InvAt idx2 st := by
  obtain ⟨h1, h2, h3, h4, h5⟩ := h
  exact ⟨h1, h2, h3, fun l hl => ⟨(h4 l hl).1, by have := (h4 l hl).2; omega⟩, h5⟩

theorem procLines_inv (idx : Nat) (font color : List Char) (size : Int)
    (x : XExpr) (baseY lh : Int) :
    ∀ (lines : List (List Char)) (i : Nat) (st : DState),
      InnerInv idx i st →
      InnerInv idx (i + lines.length)
        (procLines idx font color size x baseY lh lines i st) := by
  intro lines
  induction lines with
  | nil =>
    intro i st h
    simpa [procLines] using h
  | cons ln rest ih =>
    intro i st h
    obtain ⟨hn, hchain, hnd, houts, hprev⟩ := h
    have hnew : InnerInv idx (i + 1)
        { st with
            stages := st.stages ++
              [⟨[st.prev], .tline idx i,
                .drawtext font (escapeFFmpegText ln) color size x (baseY + i * lh)⟩],
            prev := .tline idx i } := by
      refine ⟨hn, ?_, ?_, ?_, ?_⟩
      · apply chainOK_snoc _ _ _ hchain
        intro l hl
        rw [List.mem_singleton] at hl
        subst hl
        exact prev_avail hn hprev
      · rw [outputsOf_append]
        apply nodup_snoc hnd
        intro hmem
        rcases houts _ hmem with ⟨_, hcase⟩
        rcases hcase with hlt | ⟨j, hj, heq⟩
        · simp [lIdx] at hlt
        · simp only [Label.tline.injEq] at heq
          omega
      · intro l hl
        rw [outputsOf_append] at hl
        rcases List.mem_append.1 hl with h1 | h2
        · rcases houts l h1 with ⟨he, hc⟩
          refine ⟨he, ?_⟩
          rcases hc with hlt | ⟨j, hj, rfl⟩
          · exact Or.inl hlt
          · exact Or.inr ⟨j, by omega, rfl⟩
        · simp only [outputsOf, List.map_cons, List.map_nil,
            List.mem_singleton] at h2
          subst h2
          exact ⟨rfl, Or.inr ⟨i, by omega, rfl⟩⟩
      · refine Or.inr ?_
        rw [outputsOf_append]
        refine List.mem_append.2 (Or.inr ?_)
        simp [outputsOf]
    have hres := ih (i + 1) _ hnew
    have hlen : i + (ln :: rest).length = (i + 1) + rest.length := by
      simp only [List.length_cons]
      omega
    rw [hlen]
    exact hres

theorem outputsOf_pair (s1 s2 : Stage) : outputsOf [s1, s2] = [s1.outp, s2.outp] := rfl

theorem outputsOf_single (s : Stage) : outputsOf [s] = [s.outp] := rfl

theorem dynStep_inv (canvasH idx : Nat) (el : Element) (st : DState)
    (h : InvAt idx st) : InvAt (idx + 1) (dynStepElem canvasH idx st el) := by
  obtain ⟨hn, hchain, hnd, houts, hprev⟩ := h
  by_cases himg : el.isImage = true
  · simp only [dynStepElem, himg, if_true]
    refine ⟨?_, ?_, ?_, ?_, ?_⟩
    · show 1 ≤ st.nInputs + 1
      omega
    · show chainOK (streams (st.nInputs + 1))
        (st.stages ++
          [⟨[.stream st.nInputs], .scaled idx, dynScaleOp canvasH el⟩,
           ⟨[st.prev, .scaled idx], .over idx,
            .overlay (el.xpos.getD 0) (el.ypos.getD 0)⟩]) = true
      have hmono := chainOK_mono st.stages _ _ streams_subset hchain
      rw [show st.stages ++
          [(⟨[.stream st.nInputs], .scaled idx, dynScaleOp canvasH el⟩ : Stage),
           ⟨[st.prev, .scaled idx], .over idx,
            .overlay (el.xpos.getD 0) (el.ypos.getD 0)⟩] =
          (st.stages ++
            [⟨[.stream st.nInputs], .scaled idx, dynScaleOp canvasH el⟩]) ++
          [⟨[st.prev, .scaled idx], .over idx,
            .overlay (el.xpos.getD 0) (el.ypos.getD 0)⟩] by simp]
      apply chainOK_snoc
      · apply chainOK_snoc _ _ _ hmono
        intro l hl
        rw [List.mem_singleton] at hl
        subst hl
        exact List.mem_append.2
          (Or.inr (mem_streams.2 ⟨st.nInputs, by omega, rfl⟩))
      · intro l hl
        rcases List.mem_cons.1 hl with rfl | hl2
        · rcases hprev with hp | hp
          · exact List.mem_append.2 (Or.inr (hp ▸ stream_zero_mem (by omega)))
          · refine List.mem_append.2 (Or.inl ?_)
            rw [List.mem_reverse, outputsOf_append]
            exact List.mem_append.2 (Or.inl hp)
        · rw [List.mem_singleton] at hl2
          subst hl2
          refine List.mem_append.2 (Or.inl ?_)
          rw [List.mem_reverse, outputsOf_append, outputsOf_single]
          exact List.mem_append.2 (Or.inr (List.mem_singleton.2 rfl))
    · show (outputsOf (st.stages ++
          [⟨[.stream st.nInputs], .scaled idx, dynScaleOp canvasH el⟩,
           ⟨[st.prev, .scaled idx], .over idx,
            .overlay (el.xpos.getD 0) (el.ypos.getD 0)⟩])).Nodup
      rw [outputsOf_append, outputsOf_pair, List.nodup_append]
      refine ⟨hnd, by simp, ?_⟩
      intro a ha ha2
      rcases houts a ha with ⟨_, hlt⟩
      rcases List.mem_cons.1 ha2 with rfl | ha3
      · simp [lIdx] at hlt
      · rw [List.mem_singleton] at ha3
        subst ha3
        simp [lIdx] at hlt
    · intro l hl
      rw [outputsOf_append, outputsOf_pair] at hl
      rcases List.mem_append.1 hl with h1 | h2
      · rcases houts l h1 with ⟨he, hlt⟩
        exact ⟨he, by omega⟩
      · rcases List.mem_cons.1 h2 with rfl | h3
        · exact ⟨rfl, by simp [lIdx]⟩
        · rw [List.mem_singleton] at h3
          subst h3
          exact ⟨rfl, by simp [lIdx]⟩
    · refine Or.inr ?_
      rw [outputsOf_append, outputsOf_pair]
      exact List.mem_append.2 (Or.inr (by simp))
  · by_cases htxt : el.isText = true
    · by_cases halign :
        jsToLower (el.align.getD "left".data) = "center".data ∨
          jsToLower (el.align.getD "left".data) = "right".data
      · simp only [dynStepElem, himg, htxt, halign, Bool.false_eq_true, if_true,
          if_false]
        exact inner_to_InvAt
          (procLines_inv idx _ _ _ _ _ _ _ 0 st
            (InvAt_to_inner ⟨hn, hchain, hnd, houts, hprev⟩))
      · simp only [dynStepElem, himg, htxt, halign, Bool.false_eq_true, if_true,
          if_false]
        refine ⟨hn, ?_, ?_, ?_, ?_⟩
        · apply chainOK_snoc _ _ _ hchain
          intro l hl
          rw [List.mem_singleton] at hl
          subst hl
          exact prev_avail hn hprev
        · rw [outputsOf_append, outputsOf_single]
          apply nodup_snoc hnd
          intro hmem
          rcases houts _ hmem with ⟨_, hlt⟩
          simp [lIdx] at hlt
        · intro l hl
          rw [outputsOf_append, outputsOf_single] at hl
          rcases List.mem_append.1 hl with h1 | h2
          · rcases houts l h1 with ⟨he, hlt⟩
            exact ⟨he, by omega⟩
          · rw [List.mem_singleton] at h2
            subst h2
            exact ⟨rfl, by simp [lIdx]⟩
        · refine Or.inr ?_
          rw [outputsOf_append, outputsOf_single]
          exact List.mem_append.2 (Or.inr (by simp))
    · simp only [dynStepElem, himg, htxt, Bool.false_eq_true, if_false]
      exact InvAt_mono (by omega) ⟨hn, hchain, hnd, houts, hprev⟩

theorem dynProcElems_inv (canvasH : Nat) :
    ∀ (els : List Element) (idx : Nat) (st : DState),
      InvAt idx st →
      InvAt (idx + els.length) (dynProcElems canvasH els idx st) := by
  intro els
  induction els with
  | nil => intro idx st h; simpa [dynProcElems] using h
  | cons el rest ih =>
    intro idx st h
    have hres := ih (idx + 1) _ (dynStep_inv canvasH idx el st h)
    have hlen : idx + (el :: rest).length = (idx + 1) + rest.length := by
      simp only [List.length_cons]
      omega
    rw [hlen]
    exact hres

theorem InvAt_init : InvAt 0 ⟨1, .stream 0, [], []⟩ := by
  refine ⟨Nat.le_refl 1, rfl, List.nodup_nil, ?_, Or.inl rfl⟩
  intro l hl
  simp [outputsOf] at hl

theorem wf_of_final {st : DState} {N : Nat} (h : InvAt N st) :
    (outputsOf (st.stages ++ [⟨[st.prev], .outL, .copyF⟩])).Nodup ∧
    chainOK (streams st.nInputs) (st.stages ++ [⟨[st.prev], .outL, .copyF⟩]) = true := by
  obtain ⟨hn, hchain, hnd, houts, hprev⟩ := h
  constructor
  · rw [outputsOf_append, outputsOf_single]
    apply nodup_snoc hnd
    intro hmem
    rcases houts _ hmem with ⟨he2, _⟩
    simp [elemOut] at he2
  · apply chainOK_snoc _ _ _ hchain
    intro l hl
    rw [List.mem_singleton] at hl
    subst hl
    exact prev_avail hn hprev

theorem imgStep_inv (canvasH idx : Nat) (el : Element) (st : DState)
    (h : InvAt idx st) : InvAt (idx + 1) (imgStepElem canvasH idx st el) := by
  obtain ⟨hn, hchain, hnd, houts, hprev⟩ := h
  by_cases himg : el.isImage = true
  · simp only [imgStepElem, himg, if_true]
    refine ⟨?_, ?_, ?_, ?_, ?_⟩
    · show 1 ≤ st.nInputs + 1
      omega
    · show chainOK (streams (st.nInputs + 1))
        (st.stages ++
          [⟨[.stream st.nInputs], .scaled idx, imgScaleOp canvasH el⟩,
           ⟨[st.prev, .scaled idx], .over idx,
            .overlay (el.xpos.getD 0) (el.ypos.getD 0)⟩]) = true
      have hmono := chainOK_mono st.stages _ _ streams_subset hchain
      rw [show st.stages ++
          [(⟨[.stream st.nInputs], .scaled idx, imgScaleOp canvasH el⟩ : Stage),
           ⟨[st.prev, .scaled idx], .over idx,
            .overlay (el.xpos.getD 0) (el.ypos.getD 0)⟩] =
          (st.stages ++
            [⟨[.stream st.nInputs], .scaled idx, imgScaleOp canvasH el⟩]) ++
          [⟨[st.prev, .scaled idx], .over idx,
            .overlay (el.xpos.getD 0) (el.ypos.getD 0)⟩] by simp]
      apply chainOK_snoc
      · apply chainOK_snoc _ _ _ hmono
        intro l hl
        rw [List.mem_singleton] at hl
        subst hl
        exact List.mem_append.2
          (Or.inr (mem_streams.2 ⟨st.nInputs, by omega, rfl⟩))
      · intro l hl
        rcases List.mem_cons.1 hl with rfl | hl2
        · rcases hprev with hp | hp
          · exact List.mem_append.2 (Or.inr (hp ▸ stream_zero_mem (by omega)))
          · refine List.mem_append.2 (Or.inl ?_)
            rw [List.mem_reverse, outputsOf_append]
            exact List.mem_append.2 (Or.inl hp)
        · rw [List.mem_singleton] at hl2
          subst hl2
          refine List.mem_append.2 (Or.inl ?_)
          rw [List.mem_reverse, outputsOf_append, outputsOf_single]
          exact List.mem_append.2 (Or.inr (List.mem_singleton.2 rfl))
    · show (outputsOf (st.stages ++
          [⟨[.stream st.nInputs], .scaled idx, imgScaleOp canvasH el⟩,
           ⟨[st.prev, .scaled idx], .over idx,
            .overlay (el.xpos.getD 0) (el.ypos.getD 0)⟩])).Nodup
      rw [outputsOf_append, outputsOf_pair, List.nodup_append]
      refine ⟨hnd, by simp, ?_⟩
      intro a ha ha2
      rcases houts a ha with ⟨_, hlt⟩
      rcases List.mem_cons.1 ha2 with rfl | ha3
      · simp [lIdx] at hlt
      · rw [List.mem_singleton] at ha3
        subst ha3
        simp [lIdx] at hlt
    · intro l hl
      rw [outputsOf_append, outputsOf_pair] at hl
      rcases List.mem_append.1 hl with h1 | h2
      · rcases houts l h1 with ⟨he, hlt⟩
        exact ⟨he, by omega⟩
      · rcases List.mem_cons.1 h2 with rfl | h3
        · exact ⟨rfl, by simp [lIdx]⟩
        · rw [List.mem_singleton] at h3
          subst h3
          exact ⟨rfl, by simp [lIdx]⟩
    · refine Or.inr ?_
      rw [outputsOf_append, outputsOf_pair]
      exact List.mem_append.2 (Or.inr (by simp))
  · by_cases htxt : el.isText = true
    · simp only [imgStepElem, himg, htxt, Bool.false_eq_true, if_true, if_false]
      refine ⟨hn, ?_, ?_, ?_, ?_⟩
      · apply chainOK_snoc _ _ _ hchain
        intro l hl
        rw [List.mem_singleton] at hl
        subst hl
        exact prev_avail hn hprev
      · rw [outputsOf_append, outputsOf_single]
        apply nodup_snoc hnd
        intro hmem
        rcases houts _ hmem with ⟨_, hlt⟩
        simp [lIdx] at hlt
      · intro l hl
        rw [outputsOf_append, outputsOf_single] at hl
        rcases List.mem_append.1 hl with h1 | h2
        · rcases houts l h1 with ⟨he, hlt⟩
          exact ⟨he, by omega⟩
        · rw [List.mem_singleton] at h2
          subst h2
          exact ⟨rfl, by simp [lIdx]⟩
      · refine Or.inr ?_
        rw [outputsOf_append, outputsOf_single]
        exact List.mem_append.2 (Or.inr (by simp))
    · simp only [imgStepElem, himg, htxt, Bool.false_eq_true, if_false]
      exact InvAt_mono (by omega) ⟨hn, hchain, hnd, houts, hprev⟩

theorem imgProcElems_inv (canvasH : Nat) :
    ∀ (els : List Element) (idx : Nat) (st : DState),
      InvAt idx st →
      InvAt (idx + els.length) (imgProcElems canvasH els idx st) := by
  intro els
  induction els with
  | nil => intro idx st h; simpa [imgProcElems] using h
  | cons el rest ih =>
    intro idx st h
    have hres := ih (idx + 1) _ (imgStep_inv canvasH idx el st h)
    have hlen : idx + (el :: rest).length = (idx + 1) + rest.length := by
      simp only [List.length_cons]
      omega
    rw [hlen]
    exact hres

/-- C4 (amended).  In every graph either builder produces, all stage output
labels are pairwise distinct, and every stage input is available when the
stage runs: it is a graph-input stream label `[k:v]` with `k` below the
number of registered inputs (the canvas is stream 0 and each staged image
adds one stream), or the output label of an earlier stage.  (The claim as
frozen allows only the canvas label `[0:v]` and earlier outputs; the scale
stage of an image layer consumes the fresh stream label of its own image
input, which is neither — see the counterexample.) -/
theorem graph_labels_wellFormed :
    (∀ (p : DPayload) (st : DState), composeDynamicBuild p = .ok st →
      (outputsOf st.stages).Nodup ∧
        chainOK (streams st.nInputs) st.stages = true) ∧
    (∀ (p : DPayload) (st : DState), composeImageBuild p = .ok st →
      (outputsOf st.stages).Nodup ∧
        chainOK (streams st.nInputs) st.stages = true) := by
  constructor
  · intro p st h
    unfold composeDynamicBuild at h
    by_cases he : p.elements = []
    · rw [if_pos he] at h
      exact absurd h (by simp)
    · rw [if_neg he] at h
      simp only [Except.ok.injEq] at h
      subst h
      exact wf_of_final
        (dynProcElems_inv (canvasHeightOf (getCanvasSizeDyn p.ratioStr))
          p.elements 0 ⟨1, .stream 0, [], []⟩ InvAt_init)
  · intro p st h
    unfold composeImageBuild at h
    by_cases he : p.elements = []
    · rw [if_pos he] at h
      exact absurd h (by simp)
    · rw [if_neg he] at h
      simp only [Except.ok.injEq] at h
      subst h
      exact wf_of_final
        (imgProcElems_inv (canvasHeightOf (getCanvasSizeImg p.ratioStr))
          p.elements 0 ⟨1, .stream 0, [], []⟩ InvAt_init)

/-- C4 witness: the well-formedness instantiated at a concrete
image-plus-wrapped-text payload. -/
theorem graph_labels_wellFormed_witness :
    (outputsOf (buildGetD (composeDynamicBuild mixedPayload)).stages).Nodup ∧
    chainOK (streams (buildGetD (composeDynamicBuild mixedPayload)).nInputs)
      (buildGetD (composeDynamicBuild mixedPayload)).stages = true :=
  graph_labels_wellFormed.1 mixedPayload
    (buildGetD (composeDynamicBuild mixedPayload)) (by rfl)

/-- C4 counterexample: with a single image layer, the first stage (the
scale) consumes the stream label `[1:v]` of the image input just registered
— neither the canvas's initial label `[0:v]` nor any earlier stage's output
— so the claim that every stage input equals the canvas label or an earlier
output is false. -/
theorem stage_input_stream_counterexample :
    chainOK [Label.stream 0]
      (buildGetD (composeDynamicBuild oneImagePayload)).stages = false ∧
    (buildGetD (composeDynamicBuild oneImagePayload)).stages.head? =
      some ⟨[.stream 1], .scaled 0, .scaleWH 200 200⟩ := by
  constructor <;> decide

end Kwagoo
